import Mathlib

/-!
Verification of the channel-merge pipeline (src/channel_merge.py) against its
natural-language specification.

Strings are modelled as lists of characters; Python string operations
(split, join, replace, regex digit runs) are given executable models with the
same semantics as CPython on the inputs the program feeds them.  Fallible
operations (IndexError, sys.exit) are modelled with Option and Except.
-/

namespace ChannelMerge

/-- Filenames and other Python strings are modelled as lists of characters. -/
abbrev Str := List Char

/-- Convert a Lean string literal to the model representation. -/
def str (s : String) : Str := s.data

/-! ## Python string primitives -/

/-- Python `s.split(c)` for a single-character separator `c`. -/
def splitOnChar (c : Char) : Str → List Str
  | [] => [[]]
  | x :: xs =>
    if x = c then [] :: splitOnChar c xs
    else
      match splitOnChar c xs with
      | h :: t => (x :: h) :: t
      | [] => [[x]]

/-- Does the pattern occur at the start? Python-style prefix test. -/
def startsW : Str → Str → Bool
  | [], _ => true
  | _ :: _, [] => false
  | p :: ps, s :: ss => p = s && startsW ps ss

/-- Python `sub in s`: substring occurrence test. -/
def isSub (p : Str) : Str → Bool
  | [] => startsW p []
  | s@(_ :: ss) => startsW p s || isSub p ss

/-- Python `s.endswith(p)`. -/
def endsW (p s : Str) : Bool := startsW p.reverse s.reverse

/-- Python `s.split(sep)` for a non-empty separator string: non-overlapping
left-to-right scan.  Structural recursion on a fuel that bounds the string
length (the fuel never runs out when it starts at the length; see
`splitOnStr_cons`).  Python raises on an empty separator; the program only
ever splits on a non-empty digit run, for which that guard is never hit. -/
def splitOnStrF (sep : Str) : Nat → Str → List Str
  | _, [] => [[]]
  | 0, _ :: _ => [[]]
  | fuel + 1, c :: cs =>
    if startsW sep (c :: cs) = true ∧ sep ≠ [] then
      [] :: splitOnStrF sep fuel ((c :: cs).drop sep.length)
    else
      match splitOnStrF sep fuel cs with
      | hd :: tl => (c :: hd) :: tl
      | [] => [[c]]

/-- Python `s.split(sep)`: run the scan with enough fuel. -/
def splitOnStr (sep s : Str) : List Str := splitOnStrF sep s.length s

/-- Python `sep.join(parts)`. -/
def joinWith (sep : Str) : List Str → Str
  | [] => []
  | [a] => a
  | a :: b :: t => a ++ sep ++ joinWith sep (b :: t)

/-- Python `s.replace(pat, '')` for a non-empty pattern: remove every
non-overlapping occurrence, scanning left to right (fuelled as above). -/
def replaceAllF (pat : Str) : Nat → Str → Str
  | _, [] => []
  | 0, s => s
  | fuel + 1, c :: cs =>
    if startsW pat (c :: cs) = true ∧ pat ≠ [] then
      replaceAllF pat fuel ((c :: cs).drop pat.length)
    else
      c :: replaceAllF pat fuel cs

/-- Python `s.replace(pat, '')`: run the scan with enough fuel. -/
def replaceAll (pat s : Str) : Str := replaceAllF pat s.length s

/-- The match of `re.search(r'\d+$', s)`: the maximal digit run ending the
string ([] when there is no match). -/
def digitSuffix (s : Str) : Str := (s.reverse.takeWhile Char.isDigit).reverse

/-- The string with its maximal trailing digit run removed. -/
def dropDigitSuffix (s : Str) : Str := (s.reverse.dropWhile Char.isDigit).reverse

/-- The match of `re.search(r'^\d+', s)`: the maximal leading digit run. -/
def digitPrefix (s : Str) : Str := s.takeWhile Char.isDigit

/-- Python `s.isdigit()`: non-empty and all digits. -/
def pyIsDigit (s : Str) : Bool := !s.isEmpty && s.all Char.isDigit

/-- Python whitespace split `s.split()`: maximal runs of non-whitespace
characters, with surrounding whitespace discarded.  `acc` carries the current
word, reversed. -/
def wsSplitAux : Str → Str → List Str
  | [], acc => if acc.isEmpty then [] else [acc.reverse]
  | c :: cs, acc =>
    if c.isWhitespace then
      if acc.isEmpty then wsSplitAux cs [] else acc.reverse :: wsSplitAux cs []
    else wsSplitAux cs (c :: acc)

/-- Python `s.split()` (no argument: split on whitespace runs). -/
def wsSplit (s : Str) : List Str := wsSplitAux s []

/-! ## Filename Normalizer (`format_filenames` in `cleanup_filenames`) -/

/-- Step 1 of the normalizer: `'-'.join(f.split())` — collapse every
whitespace run to a single hyphen. -/
def collapseWs (s : Str) : Str := joinWith [ '-' ] (wsSplit s)

/-- `format_trailing_nums` from the source, including its digit-prefix
correction.  Returns `none` exactly when the Python code raises an
IndexError (`new[-1]` on the empty string, which happens when the stem of the
filename is a non-empty digit run). -/
def format_trailing_nums (s : Str) : Option Str :=
  -- trim .extension : sp = '.'.join(s.split('.')[:-1])
  let sp := joinWith [ '.' ] ((splitOnChar '.' s).dropLast)
  -- match digits at end of string : re.search('\d+$', sp)
  let endnum := digitSuffix sp
  let step1 : Option Str :=
    if endnum = [] then some s
    else
      -- new = endnum.join(sp.split(endnum)[:-1])
      let new0 := joinWith endnum ((splitOnStr endnum sp).dropLast)
      match new0.getLast? with
      | none => none    -- new[-1] raises IndexError on the empty string
      | some c =>
        let new1 := if c = '-' then new0.dropLast else new0
        -- ext = '.' + s.split('.')[-1] ; new = '-'.join((new, endnum)) + ext
        let ext := '.' :: (splitOnChar '.' s).getLastD []
        some (joinWith [ '-' ] [new1, endnum] ++ ext)
  match step1 with
  | none => none
  | some nw =>
    -- pfx = new.split('-')[0]
    let pfx := (splitOnChar '-' nw).headD []
    if pyIsDigit pfx then some nw
    else
      -- m = re.search('^\d+', pfx)
      let dp := digitPrefix pfx
      if dp = [] then some nw
      else
        -- mid = pfx.replace(m.group(), '') ; end = '-'.join(new.split('-')[1:])
        let mid := replaceAll dp pfx
        let rest2 := joinWith [ '-' ] ((splitOnChar '-' nw).tail)
        some (joinWith [ '-' ] [dp, mid, rest2])

/-- Normalization of one filename: whitespace collapse followed by
`format_trailing_nums` (the body of `format_filenames`, per element). -/
def format1 (s : Str) : Option Str := format_trailing_nums (collapseWs s)

/-- `format_filenames`: normalize a whole listing (the Python list
comprehensions); `none` if any element raises. -/
def format_filenames (fs : List Str) : Option (List Str) := fs.mapM format1

/-! ## Python sorting

CPython `sorted` / `list.sort` are stable; since equal strings are identical
lists, an insertion sort computes the same result. -/

/-- Python string comparison `a < b`: lexicographic on code points. -/
def pyStrLt : Str → Str → Bool
  | [], [] => false
  | [], _ :: _ => true
  | _ :: _, [] => false
  | a :: as_, b :: bs => if a = b then pyStrLt as_ bs else decide (a.val < b.val)

/-- Python list comparison on lists of strings (used by `channels.sort()`). -/
def pyStrListLt : List Str → List Str → Bool
  | [], [] => false
  | [], _ :: _ => true
  | _ :: _, [] => false
  | a :: as_, b :: bs => if a = b then pyStrListLt as_ bs else pyStrLt a b

/-- Insert before the first strictly `lt`-greater element. -/
def insertBy (lt : α → α → Bool) (x : α) : List α → List α
  | [] => [x]
  | y :: ys => if lt x y then x :: y :: ys else y :: insertBy lt x ys

/-- Insertion sort ascending with respect to `lt`. -/
def sortBy (lt : α → α → Bool) : List α → List α
  | [] => []
  | x :: xs => insertBy lt x (sortBy lt xs)

/-- Python `sorted(l)` on strings. -/
def pySorted (l : List Str) : List Str := sortBy pyStrLt l

/-- Python `sorted(t, reverse=True)` on strings (descending). -/
def pySortedDesc (l : List Str) : List Str := sortBy (fun a b => pyStrLt b a) l

/-! ## Images and the image codec -/

/-- Pixel data: a 2-D grayscale plane or a 3-D stack (rows, cols, channels). -/
inductive Pix where
  | g2 (rows : List (List Nat))
  | g3 (vox : List (List (List Nat)))
deriving DecidableEq, Repr

/-- numpy `.shape`. -/
def Pix.shape : Pix → List Nat
  | .g2 rows => [rows.length, (rows.headD []).length]
  | .g3 vox => [vox.length, (vox.headD []).length, ((vox.headD []).headD []).length]

/-- A pixel buffer with its dtype, as returned by the image codec. -/
structure Buf where
  dtype : Str
  pix : Pix
deriving DecidableEq, Repr

instance : Inhabited Buf := ⟨⟨[], .g2 []⟩⟩

/-- Zero every sample, keeping the layout. -/
def zerosPix : Pix → Pix
  | .g2 rows => .g2 (rows.map (fun r => r.map (fun _ => 0)))
  | .g3 vox => .g3 (vox.map (fun p => p.map (fun r => r.map (fun _ => 0))))

/-- `numpy.zeros_like`: all-zero buffer of identical shape and dtype. -/
def zeros_like (b : Buf) : Buf := ⟨b.dtype, zerosPix b.pix⟩

/-- All samples of the buffer are zero. -/
def allZeroPix : Pix → Bool
  | .g2 rows => rows.all (fun r => r.all (fun x => x == 0))
  | .g3 vox => vox.all (fun p => p.all (fun r => r.all (fun x => x == 0)))

/-- Observable filesystem and image I/O actions of one run. -/
inductive Event where
  | rename (old new : Str)
  | readImg (f : Str)
  | writeImg (f : Str) (b : Buf)
  | removeFile (f : Str)
deriving DecidableEq, Repr

/-- How a run ends abnormally: `sys.exit(msg)` or an uncaught Python error. -/
inductive Halt where
  | exitMsg (m : Str)
  | pyError
deriving DecidableEq, Repr

/-- The working directory: filenames with their pixel contents. -/
abbrev Dir := List (Str × Buf)

/-- Contents of a file (total: reads in the modelled runs are of files that
exist, so the default is never produced on modelled paths). -/
def fsGet (d : Dir) (f : Str) : Buf := ((d.find? (fun p => p.1 == f)).map (fun p => p.2)).getD default

/-- `tiffwrite`: create or overwrite. -/
def fsWrite (d : Dir) (f : Str) (b : Buf) : Dir :=
  if d.any (fun p => p.1 == f) then d.map (fun p => if p.1 == f then (f, b) else p)
  else d ++ [(f, b)]

/-- The argument shapes `tiffread` is given: a single filename, a Python list
of filenames, or `None` (the initial value of `model_tif`). -/
inductive TifRef where
  | one (f : Str)
  | many (l : List Str)
  | noneRef
deriving DecidableEq, Repr

/-- numpy `np.dstack` on 2-D planes: succeeds iff all shapes agree, stacking
along a new trailing axis.  (`.error` models the ValueError.) -/
def dstackN (l : List Buf) : Except Unit Buf :=
  let rws := l.filterMap (fun b => match b.pix with | .g2 rw => some rw | .g3 _ => none)
  if rws.length = l.length ∧ l ≠ [] ∧
      rws.all (fun rw => (Pix.g2 rw).shape == (Pix.g2 (rws.headD [])).shape) then
    let h := (rws.headD []).length
    let w := ((rws.headD []).headD []).length
    .ok ⟨(l.headD default).dtype,
         .g3 ((List.range h).map (fun i => (List.range w).map (fun j =>
            rws.map (fun rw => (rw.getD i []).getD j 0))))⟩
  else .error ()

/-- `tiffread`: read a file (or a 1- or 3-element list of files) into a
buffer, emitting the read events.  An unreadable reference raises ValueError,
which `tiffread` turns into `sys.exit`; a list of another length falls off the
end of the function and returns Python `None` (`.ok none`). -/
def tiffread (d : Dir) : TifRef → List Event × Except Halt (Option Buf)
  | .one f => ([.readImg f], .ok (some (fsGet d f)))
  | .many [f] => ([.readImg f], .ok (some (fsGet d f)))
  | .many l =>
    if l.length = 3 then
      let l2 := pySortedDesc l    -- f.sort(reverse=True) so r, g, b
      let evs := l2.map Event.readImg
      match dstackN (l2.map (fsGet d)) with
      | .ok stk => (evs, .ok (some stk))
      | .error _ => (evs, .error (.exitMsg (str "ERROR reading")))
    else ([], .ok none)
  | .noneRef => ([], .error (.exitMsg (str "ERROR reading")))

/-! ## Channel Classifier and Combination Enumerator -/

/-- The acquisition id of a filename: `f.split('-')[0]`. -/
def headSeg (f : Str) : Str := (splitOnChar '-' f).headD []

/-- Collapse equal adjacent elements (applied after sorting, this yields
Python `sorted(set(l))`). -/
def dedupAdj : List Str → List Str
  | [] => []
  | [a] => [a]
  | a :: b :: t => if a = b then dedupAdj (b :: t) else a :: dedupAdj (b :: t)

/-- `group_images`: map acquisition id to its files.  The source sorts the
list of groups independently of the sorted key list before zipping them. -/
def group_images (filenames : List Str) : List (Str × List Str) :=
  let nums := dedupAdj (pySorted (filenames.map headSeg))
  let chans := nums.map (fun n => filenames.filter (fun f => headSeg f == n))
  let chans2 := sortBy pyStrListLt chans
  nums.zip chans2

/-- The per-acquisition channel lists `{'r': [], 'g': [], 'b': []}`. -/
structure Colors where
  r : List Str
  g : List Str
  b : List Str
deriving DecidableEq, Repr

/-- The channel letter inferred from a filename:
`f.split('-')[1].lower()[0]`.  `none` models the IndexError (no second
segment, or an empty second segment). -/
def channelLetter (f : Str) : Option Char :=
  match (splitOnChar '-' f).get? 1 with
  | none => none
  | some tok => (tok.map Char.toLower).head?

/-- One classification step: append to the matching channel list, silently
drop letters other than r/g/b, and record IndexError files as bad. -/
def classifyStep (st : Colors × List Str) (f : Str) : Colors × List Str :=
  match channelLetter f with
  | some c =>
    if c = 'r' then ({ st.1 with r := st.1.r ++ [f] }, st.2)
    else if c = 'g' then ({ st.1 with g := st.1.g ++ [f] }, st.2)
    else if c = 'b' then ({ st.1 with b := st.1.b ++ [f] }, st.2)
    else st
  | none => (st.1, st.2 ++ [f])

/-- Classify the files of one acquisition into channel lists and bad files. -/
def classify (files : List Str) : Colors × List Str :=
  files.foldl classifyStep (⟨[], [], []⟩, [])

/-- The number of non-empty channel lists. -/
def countNonEmpty (c : Colors) : Nat :=
  (if c.r.isEmpty then 0 else 1) + (if c.g.isEmpty then 0 else 1)
    + (if c.b.isEmpty then 0 else 1)

/-- Exactly two of the three channel lists are non-empty. -/
def is_two_channels (c : Colors) : Bool := countNonEmpty c == 2

/-- The name of the synthesized placeholder: `'%s-%s.dummy' % (im_id, ch)`. -/
def dummyNameFor (im_id : Str) (ch : Char) : Str := im_id ++ '-' :: ch :: str ".dummy"

/-- `allow_two_channels`: when exactly two channels are populated, append a
placeholder name to the empty list, pick a template file (the last assignment
of the r, g, b iteration wins), and `generate_dummy_tif`: read the template,
write an all-zero buffer of its shape and dtype under the placeholder name.
Returns the updated lists, directory, and I/O events. -/
def allow_two_channels (d : Dir) (im_id : Str) (colors : Colors) :
    Except Halt (Colors × Dir × List Event) :=
  if is_two_channels colors then
    let pick := fun (st : Option Str × TifRef) (p : Char × List Str) =>
      match p.2 with
      | [] => (some (dummyNameFor im_id p.1), st.2)
      | [f] => (st.1, TifRef.many [f])
      | f :: _ :: _ => (st.1, TifRef.one f)
    let st := [( 'r', colors.r), ( 'g', colors.g), ( 'b', colors.b)].foldl pick
      (none, TifRef.noneRef)
    match st.1 with
    | none => .error .pyError    -- dummy_name stayed None; unreachable when two channels exist
    | some dn =>
      match tiffread d st.2 with
      | (_evs, .error h) => .error h    -- unreachable: the template is a real file
      | (_evs, .ok none) => .error .pyError    -- np.zeros_like(None); unreachable
      | (evs, .ok (some model)) =>
        -- exactly one list is empty under the guard, so appending the
        -- placeholder to each empty list appends it to just that one
        let colors2 : Colors :=
          { r := if colors.r.isEmpty then [dn] else colors.r,
            g := if colors.g.isEmpty then [dn] else colors.g,
            b := if colors.b.isEmpty then [dn] else colors.b }
        let db := zeros_like model
        .ok (colors2, fsWrite d dn db, evs ++ [.writeImg dn db])
  else .ok (colors, d, [])

/-- `itertools.product(*colors.values())` with the dict iteration order
r, g, b; each element materialised as a 3-element list. -/
def product3 (rs gs bs : List Str) : List (List Str) :=
  rs.flatMap (fun x => gs.flatMap (fun y => bs.map (fun z => [x, y, z])))

/-- All combinations of one acquisition: the Cartesian product, each triple
re-sorted in reverse lexicographic order of the filenames. -/
def combosOf (colors : Colors) : List (List Str) :=
  (product3 colors.r colors.g colors.b).map pySortedDesc

/-- A combination is Red-Green-Blue ordered when its members come from the
red, green and blue lists in that order. -/
def rgbOrderedB (colors : Colors) (combo : List Str) : Bool :=
  match combo with
  | [x, y, z] => colors.r.contains x && colors.g.contains y && colors.b.contains z
  | _ => false

/-- The batched error message for unclassifiable filenames: it interpolates
only the count of bad files. -/
def errorMsg (bad : List Str) : Str :=
  str "\x1b[93m" ++ str "Error: " ++ str "\x1b[0m" ++
  str "Unable to infer color channel from " ++ Nat.toDigits 10 bad.length ++
  str " filename(s)\n" ++
  str "This is likely due to the filename not containing any " ++
  str "\x22-\x22 separators from a conflict when trying to coerce the " ++
  str "image names to the format \x22<id>-channel[-opt]\x22. You will " ++
  str "need to manually resolve any name conflicts." ++
  str "\x1b[91m" ++ str "\nAborting script due to uninferable color channels"

/-- One acquisition step of `tiffs_iterate_combos`: classify, fill a
two-channel acquisition with a placeholder (performing its image I/O
immediately), and append the combinations and bad files. -/
def tiffsStep (st : Dir × List Event × Except Halt (List (Str × List (List Str)) × List Str))
    (p : Str × List Str) :
    Dir × List Event × Except Halt (List (Str × List (List Str)) × List Str) :=
  match st with
  | (d0, evs, .error h) => (d0, evs, .error h)
  | (d0, evs, .ok (imgs, bad)) =>
    let (colors, badf) := classify p.2
    match allow_two_channels d0 p.1 colors with
    | .error h => (d0, evs, .error h)
    | .ok (colors2, d1, evs1) =>
      (d1, evs ++ evs1, .ok (imgs ++ [(p.1, combosOf colors2)], bad ++ badf))

/-- The unclassifiable files of all acquisitions, in processing order. -/
def badOfChannels (channels : List (Str × List Str)) : List Str :=
  channels.foldl (fun acc p => acc ++ (classify p.2).2) []

/-- `tiffs_iterate_combos`: process every acquisition and afterwards exit if
any filename was unclassifiable. -/
def tiffs_iterate_combos (d : Dir) (channels : List (Str × List Str)) :
    Dir × List Event × Except Halt (List (Str × List (List Str))) :=
  let (d1, evs, res) := channels.foldl tiffsStep (d, [], .ok ([], []))
  match res with
  | .error h => (d1, evs, .error h)
  | .ok (imgs, bad) =>
    if bad.isEmpty then (d1, evs, .ok imgs)
    else (d1, evs, .error (.exitMsg (errorMsg bad)))

/-! ## Correction and Compositor -/

/-- The scipy axis filter threshold: axes with `sigma <= 1e-15` are skipped by
`ndi.gaussian_filter`, so a scalar sigma of 0 leaves the input unchanged. -/
def sigmaEps : ℚ := mkRat 1 (10 ^ 15)

/-- Gaussian kernel radius `int(truncate * sigma + 0.5)` with the default
`truncate = 4.0` (sigma is non-negative in every call, so `int` truncation is
the floor). -/
def gaussRadius (sigma : ℚ) : ℕ := (4 * sigma + 1 / 2).floor.toNat

/-- The normalized Gaussian sample weights of `scipy.ndimage`, reversed as in
`_gaussian_kernel1d(...)[::-1]` (the kernel is symmetric).  Only reached for
`sigma > 1e-15`; transcendental, hence noncomputable, and never evaluated by
any theorem below. -/
noncomputable def gaussWeights (sigma : ℚ) : List ℝ :=
  let r := gaussRadius sigma
  let phi := (List.range (2 * r + 1)).map
    (fun i => Real.exp (-(1 / 2) / ((sigma : ℝ) * (sigma : ℝ)) * ((i : ℝ) - (r : ℝ)) ^ 2))
  (phi.map (fun x => x / phi.sum)).reverse

/-- Nearest-edge (clamped) sample of a row, the `mode='nearest'` boundary. -/
def sampleNearest (row : List ℕ) (i : ℤ) : ℕ :=
  row.getD (min (max i 0) ((row.length : ℤ) - 1)).toNat 0

/-- `correlate1d` with an odd-length kernel centred at origin 0 and nearest
boundary handling, followed by the cast back to the unsigned input dtype
(numpy float-to-unsigned cast truncates; blur outputs are non-negative). -/
noncomputable def correl1dNearest (w : List ℝ) (row : List ℕ) : List ℕ :=
  let r : ℤ := ((w.length : ℤ) - 1) / 2
  (List.range row.length).map (fun j =>
    (⌊((List.range w.length).map (fun i =>
        w.getD i 0 * (sampleNearest row ((j : ℤ) + (i : ℤ) - r) : ℝ))).sum⌋).toNat)

/-- Blur a 2-D plane along axis 0 then axis 1, writing each pass back into the
input dtype, as `gaussian_filter` does with `output` of the input dtype. -/
noncomputable def gaussBlur2d (w : List ℝ) (rows : List (List ℕ)) : List (List ℕ) :=
  let pass0 := (rows.transpose.map (correl1dNearest w)).transpose
  pass0.map (correl1dNearest w)

/-- Blur a 3-D stack along axes 0, 1, 2 in order. -/
noncomputable def gaussBlur3d (w : List ℝ) (vox : List (List (List ℕ))) :
    List (List (List ℕ)) :=
  let pass0 := ((vox.transpose.map (fun p => (p.transpose.map (correl1dNearest w)).transpose)).transpose)
  let pass1 := pass0.map (fun p => (p.transpose.map (correl1dNearest w)).transpose)
  pass1.map (fun p => p.map (correl1dNearest w))

/-- `ndi.gaussian_filter(x, sigma, mode='nearest', cval=0)`: every axis whose
sigma exceeds `1e-15` is filtered in turn; with none (sigma = 0) the output is
a copy of the input. -/
noncomputable def gaussian_filter (sigma : ℚ) (b : Buf) : Buf :=
  if sigmaEps < sigma then
    match b.pix with
    | .g2 rows => ⟨b.dtype, .g2 (gaussBlur2d (gaussWeights sigma) rows)⟩
    | .g3 vox => ⟨b.dtype, .g3 (gaussBlur3d (gaussWeights sigma) vox)⟩
  else b

/-- `cv2.subtract` on unsigned samples: elementwise saturating subtraction
(natural-number subtraction floors at zero). -/
def subPix : Pix → Pix → Pix
  | .g2 a, .g2 b => .g2 (List.zipWith (List.zipWith (fun x y => x - y)) a b)
  | .g3 a, .g3 b => .g3 (List.zipWith (List.zipWith (List.zipWith (fun x y => x - y))) a b)
  | a, _ => a    -- mismatched ranks never occur: both arguments share a layout

/-- `cv2.divide` on unsigned samples (division by zero yields 0, result
rounded to nearest).  The program never selects this method. -/
def divPix : Pix → Pix → Pix
  | .g2 a, .g2 b => .g2 (List.zipWith (List.zipWith (fun x y => if y = 0 then 0 else (2 * x + y) / (2 * y))) a b)
  | .g3 a, .g3 b => .g3 (List.zipWith (List.zipWith (List.zipWith (fun x y => if y = 0 then 0 else (2 * x + y) / (2 * y)))) a b)
  | a, _ => a

/-- `illum_correction`: Gaussian-blur background subtraction; an unsupported
method raises ValueError (uncaught). -/
noncomputable def illum_correction (x : Buf) (sigma : ℚ) (method : Str) :
    Except Halt Buf :=
  let y := gaussian_filter sigma x
  if method = str "subtract" then .ok ⟨x.dtype, subPix x.pix y.pix⟩
  else if method = str "divide" then .ok ⟨x.dtype, divPix x.pix y.pix⟩
  else .error .pyError

/-- Dictionary assignment `d[k] = v` on an insertion-ordered dict. -/
def dictInsert (d : List (Str × α)) (k : Str) (v : α) : List (Str × α) :=
  if d.any (fun p => p.1 == k) then d.map (fun p => if p.1 == k then (k, v) else p)
  else d ++ [(k, v)]

/-- `get_uids`: one key per combination — the acquisition id for the first,
`<id>-<n>` (n = 2, 3, ...) for the rest.  The enumerator always stores lists
of list-typed combinations, so the `type(imls[0]) is list` test always takes
the flattening branch. -/
def get_uids (imgs : List (Str × List (List Str))) : List (Str × List Str) :=
  imgs.foldl (fun uids p =>
    let k := p.1
    let imls := p.2
    let uids1 :=
      if imls.length = 1 then dictInsert uids k (imls.headD []) else uids
    if imls.length > 1 then
      let first := dictInsert uids1 k (imls.headD [])
      (List.range (imls.length - 1)).foldl
        (fun acc i => dictInsert acc (k ++ '-' :: Nat.toDigits 10 (i + 2)) (imls.getD (i + 1) []))
        first
    else uids1) []

/-- `preproc_imgs`: per combination, read the channel files, correct each
channel, and stack them; a shape mismatch in `np.dstack` is caught and the
combination skipped. -/
noncomputable def preprocStep (d : Dir) (sigma : ℚ)
    (st : List Event × Except Halt (List (Str × Buf))) (p : Str × List Str) :
    List Event × Except Halt (List (Str × Buf)) :=
  match st with
  | (evs, .error h) => (evs, .error h)
  | (evs, .ok rgb) =>
    let reads := p.2.map Event.readImg
    let ims := p.2.map (fsGet d)
    match ims.mapM (fun x => illum_correction x sigma (str "subtract")) with
    | .error h => (evs ++ reads, .error h)
    | .ok imsCorr =>
      match dstackN imsCorr with
      | .ok stk => (evs ++ reads, .ok (dictInsert rgb p.1 stk))
      | .error _ => (evs ++ reads, .ok rgb)    -- ValueError caught: skip this uid

noncomputable def preproc_imgs (d : Dir) (imgs : List (Str × List (List Str))) (sigma : ℚ) :
    List Event × Except Halt (List (Str × Buf)) :=
  (get_uids imgs).foldl (preprocStep d sigma) ([], .ok [])

/-- `outfile_names`: derive `<id>-rgb.tif` / `<id>-rgb-<n>.tif`. -/
def outfile_names (rgb : List (Str × Buf)) : List (Str × Buf) :=
  rgb.foldl (fun acc p =>
    let ks := splitOnChar '-' p.1
    let fname :=
      if ks.length = 2 then joinWith [ '-' ] [ks.headD [], str "rgb", ks.getLastD []] ++ str ".tif"
      else joinWith [ '-' ] [p.1, str "rgb"] ++ str ".tif"
    dictInsert acc fname p.2) []

/-! ## Run Orchestrator (`main`) -/

/-- `safe_rename` over the whole zipped listing: skip when the destination
exists; otherwise move the entry.  A missing source cannot occur (sources are
listing entries and collisions are skipped before they could be clobbered). -/
def safe_renames (d : Dir) (pairs : List (Str × Str)) : Dir × List Event :=
  pairs.foldl (fun st p =>
    if st.1.any (fun q => q.1 == p.2) then st
    else
      match st.1.find? (fun q => q.1 == p.1) with
      | some entry =>
        ((st.1.filter (fun q => !(q.1 == p.1))) ++ [(p.2, entry.2)],
         st.2 ++ [.rename p.1 p.2])
      | none => st)
    (d, [])

/-- `cleanup_filenames`: format the listing, rename files on disk, and return
the formatted names with brightfield (`-bf`) files excluded and sorted.
`none` models the uncaught IndexError of `format_trailing_nums`. -/
def cleanup_filenames (d : Dir) (tifs : List Str) :
    Option (List Str × Dir × List Event) :=
  match format_filenames tifs with
  | none => none
  | some fmt =>
    let (d2, evs) := safe_renames d (tifs.zip fmt)
    let kept := pySorted (fmt.filter (fun f => !(isSub (str "-bf") f)))
    some (kept, d2, evs)

/-- The outcome of one run: the ordered I/O trace and how the process ended
(`none` is a normal exit). -/
structure RunResult where
  trace : List Event
  halt : Option Halt
deriving DecidableEq, Repr

/-- `main`: glob the tif files, normalize and rename, group, enumerate
combinations (with placeholder synthesis), correct and compose, write the
composites, and finally delete every `*.dummy` file.  The batched
unclassifiable-filename exit leaves `tiffs_iterate_combos` before any of the
later stages run — and before `cleanup()`. -/
noncomputable def runPipeline (d : Dir) (sigma : ℚ) (outdir : Str) : RunResult :=
  let tifs := (d.map (fun p => p.1)).filter (fun f => endsW (str ".tif") f)
  match cleanup_filenames d tifs with
  | none => ⟨[], some .pyError⟩
  | some (kept, d2, renameEvs) =>
    let channels := group_images kept
    match tiffs_iterate_combos d2 channels with
    | (_, evs2, .error h) => ⟨renameEvs ++ evs2, some h⟩
    | (d3, evs2, .ok imgs) =>
      match preproc_imgs d3 imgs sigma with
      | (evs3, .error h) => ⟨renameEvs ++ evs2 ++ evs3, some h⟩
      | (evs3, .ok rgb) =>
        let outs := outfile_names rgb
        let writeEvs := outs.map (fun p => Event.writeImg (outdir ++ '/' :: p.1) p.2)
        let d4 := outs.foldl (fun dd p => fsWrite dd (outdir ++ '/' :: p.1) p.2) d3
        let dummies := (d4.map (fun p => p.1)).filter (endsW (str ".dummy"))
        let rmEvs := dummies.map Event.removeFile
        ⟨renameEvs ++ evs2 ++ evs3 ++ writeEvs ++ rmEvs, none⟩

/-! ## Supporting lemmas -/

theorem mem_insertBy {lt : α → α → Bool} {x y : α} {l : List α} :
    x ∈ insertBy lt y l ↔ x = y ∨ x ∈ l := by
  induction l with
  | nil => simp [insertBy]
  | cons a t ih =>
    simp only [insertBy]
    split
    · simp
    · simp only [List.mem_cons, ih]
      tauto

theorem mem_sortBy {lt : α → α → Bool} {x : α} {l : List α} :
    x ∈ sortBy lt l ↔ x ∈ l := by
  induction l with
  | nil => simp [sortBy]
  | cons a t ih => simp [sortBy, mem_insertBy, ih]

theorem classify_fold_r (files : List Str) (st : Colors × List Str) (x : Str)
    (hx : x ∈ (files.foldl classifyStep st).1.r) :
    x ∈ st.1.r ∨ channelLetter x = some 'r' := by
  induction files generalizing st with
  | nil => exact Or.inl hx
  | cons f fs ih =>
    rcases ih (classifyStep st f) hx with h | h
    · unfold classifyStep at h
      rcases hf : channelLetter f with _ | c <;> rw [hf] at h
      · exact Or.inl h
      · dsimp at h
        split at h
        · rename_i hc
          simp only [List.mem_append, List.mem_singleton] at h
          rcases h with h | h
          · exact Or.inl h
          · subst h; rw [hf, hc]; exact Or.inr rfl
        · split at h
          · exact Or.inl h
          · split at h <;> exact Or.inl h
    · exact Or.inr h

theorem classify_fold_g (files : List Str) (st : Colors × List Str) (x : Str)
    (hx : x ∈ (files.foldl classifyStep st).1.g) :
    x ∈ st.1.g ∨ channelLetter x = some 'g' := by
  induction files generalizing st with
  | nil => exact Or.inl hx
  | cons f fs ih =>
    rcases ih (classifyStep st f) hx with h | h
    · unfold classifyStep at h
      rcases hf : channelLetter f with _ | c <;> rw [hf] at h
      · exact Or.inl h
      · dsimp at h
        split at h
        · exact Or.inl h
        · split at h
          · rename_i hc
            simp only [List.mem_append, List.mem_singleton] at h
            rcases h with h | h
            · exact Or.inl h
            · subst h; rw [hf, hc]; exact Or.inr rfl
          · split at h <;> exact Or.inl h
    · exact Or.inr h

theorem classify_fold_b (files : List Str) (st : Colors × List Str) (x : Str)
    (hx : x ∈ (files.foldl classifyStep st).1.b) :
    x ∈ st.1.b ∨ channelLetter x = some 'b' := by
  induction files generalizing st with
  | nil => exact Or.inl hx
  | cons f fs ih =>
    rcases ih (classifyStep st f) hx with h | h
    · unfold classifyStep at h
      rcases hf : channelLetter f with _ | c <;> rw [hf] at h
      · exact Or.inl h
      · dsimp at h
        split at h
        · exact Or.inl h
        · split at h
          · exact Or.inl h
          · split at h
            · rename_i hc
              simp only [List.mem_append, List.mem_singleton] at h
              rcases h with h | h
              · exact Or.inl h
              · subst h; rw [hf, hc]; exact Or.inr rfl
            · exact Or.inl h
    · exact Or.inr h

theorem classify_fold_bad (files : List Str) (st : Colors × List Str) (x : Str)
    (hx : x ∈ (files.foldl classifyStep st).2) :
    x ∈ st.2 ∨ channelLetter x = none := by
  induction files generalizing st with
  | nil => exact Or.inl hx
  | cons f fs ih =>
    rcases ih (classifyStep st f) hx with h | h
    · unfold classifyStep at h
      rcases hf : channelLetter f with _ | c <;> rw [hf] at h
      · dsimp at h
        simp only [List.mem_append, List.mem_singleton] at h
        rcases h with h | h
        · exact Or.inl h
        · subst h; exact Or.inr hf
      · dsimp at h
        split at h
        · exact Or.inl h
        · split at h
          · exact Or.inl h
          · split at h <;> exact Or.inl h
    · exact Or.inr h

theorem splitOnChar_ne_nil (c : Char) (s : Str) : splitOnChar c s ≠ [] := by
  induction s with
  | nil => simp [splitOnChar]
  | cons x xs ih =>
    unfold splitOnChar
    split
    · simp
    · cases h : splitOnChar c xs <;> simp [h]

theorem splitOnChar_not_mem (c : Char) (s : Str) (h : c ∉ s) : splitOnChar c s = [s] := by
  induction s with
  | nil => rfl
  | cons x xs ih =>
    have hx : ¬(x = c) := fun he => h (he ▸ List.mem_cons_self x xs)
    have hxs : c ∉ xs := fun hm => h (List.mem_cons_of_mem x hm)
    unfold splitOnChar
    rw [if_neg hx, ih hxs]

theorem splitOnChar_append (c : Char) (a b : Str) (ha : c ∉ a) :
    splitOnChar c (a ++ c :: b) = a :: splitOnChar c b := by
  induction a with
  | nil => simp [splitOnChar]
  | cons x xs ih =>
    have hx : ¬(x = c) := fun he => ha (he ▸ List.mem_cons_self x xs)
    have hxs : c ∉ xs := fun hm => ha (List.mem_cons_of_mem x hm)
    show splitOnChar c (x :: (xs ++ c :: b)) = (x :: xs) :: splitOnChar c b
    unfold splitOnChar
    rw [if_neg hx, ih hxs]
    simp
    rw [splitOnChar.eq_def]

theorem firstOcc (c : Char) (s : Str) (h : c ∈ s) : ∃ a b, s = a ++ c :: b ∧ c ∉ a := by
  induction s with
  | nil => simp at h
  | cons x xs ih =>
    by_cases hx : x = c
    · exact ⟨[], xs, by simp [hx], by simp⟩
    · have h1 : c ∈ xs := by
        rcases List.mem_cons.mp h with h2 | h2
        · exact absurd h2.symm hx
        · exact h2
      rcases ih h1 with ⟨a, b, hab, hna⟩
      refine ⟨x :: a, b, by rw [hab]; rfl, ?_⟩
      intro hm
      rcases List.mem_cons.mp hm with h2 | h2
      · exact hx h2.symm
      · exact hna h2

theorem splitOnChar_headD (c : Char) (s : Str) :
    (splitOnChar c s).headD [] = s.takeWhile (fun x => x != c) := by
  induction s with
  | nil => rfl
  | cons x xs ih =>
    unfold splitOnChar
    split
    · rename_i hx
      rw [List.takeWhile_cons_of_neg]
      · rfl
      · simp [hx]
    · rename_i hx
      rw [List.takeWhile_cons_of_pos (by simp [hx])]
      cases h : splitOnChar c xs with
      | nil => exact absurd h (splitOnChar_ne_nil c xs)
      | cons hd tl =>
        rw [h] at ih
        simp only [List.headD_cons] at ih
        simp [ih]

theorem startsW_append_self (p x : Str) : startsW p (p ++ x) = true := by
  induction p with
  | nil => rfl
  | cons a t ih => simp [startsW, ih]

theorem startsW_exists {p s : Str} (h : startsW p s = true) : ∃ t, s = p ++ t := by
  induction p generalizing s with
  | nil => exact ⟨s, rfl⟩
  | cons a t ih =>
    cases s with
    | nil => simp [startsW] at h
    | cons b u =>
      simp only [startsW, Bool.and_eq_true, decide_eq_true_eq] at h
      rcases ih h.2 with ⟨t2, ht⟩
      exact ⟨t2, by simp [h.1, ht]⟩

theorem isSub_of_startsW {p s : Str} (h : startsW p s = true) : isSub p s = true := by
  cases s with
  | nil => exact h
  | cons x xs => simp [isSub, h]

theorem isSub_append_left {p s : Str} (a : Str) (h : isSub p s = true) :
    isSub p (a ++ s) = true := by
  induction a with
  | nil => exact h
  | cons x xs ih =>
    show isSub p (x :: (xs ++ s)) = true
    cases hps : startsW p (x :: (xs ++ s)) <;> simp [isSub, hps, ih]

theorem startsW_takeWhile {q : Str} (pred : Char → Bool) (l : Str)
    (h : startsW q (l.takeWhile pred) = true) : startsW q l = true := by
  induction l generalizing q with
  | nil => simpa [List.takeWhile] using h
  | cons x xs ih =>
    by_cases hp : pred x
    · rw [List.takeWhile_cons_of_pos hp] at h
      cases q with
      | nil => rfl
      | cons a t =>
        simp only [startsW, Bool.and_eq_true] at h ⊢
        exact ⟨h.1, ih h.2⟩
    · rw [List.takeWhile_cons_of_neg hp] at h
      cases q with
      | nil => rfl
      | cons a t => simp [startsW] at h

/-- The second hyphen segment of a filename, when it exists, is the
`takeWhile` of the remainder after the first hyphen; a filename with a
second segment splits as `a ++ '-' :: b` with the segment a prefix of `b`. -/
theorem token_structure (f tok : Str)
    (htok : (splitOnChar '-' f).get? 1 = some tok) :
    ∃ a b, f = a ++ '-' :: b ∧ ('-') ∉ a ∧ tok = b.takeWhile (fun x => x != '-') := by
  by_cases hm : ('-') ∈ f
  · rcases firstOcc _ f hm with ⟨a, b, hab, hna⟩
    refine ⟨a, b, hab, hna, ?_⟩
    rw [hab, splitOnChar_append _ _ _ hna] at htok
    cases hsp : splitOnChar '-' b with
    | nil => exact absurd hsp (splitOnChar_ne_nil _ b)
    | cons hd tl =>
      rw [hsp] at htok
      simp only [List.get?] at htok
      have : hd = tok := by injection htok
      rw [← this, ← splitOnChar_headD, hsp]
      rfl
  · rw [splitOnChar_not_mem _ f hm] at htok
    simp at htok

/-! ## Claims -/

/-- Claim C10 (confirmed): a file that does have a token after the first
hyphen, but whose lowercased first token character is not r, g or b, is added
to none of the three channel lists and not to the bad-file list either: it is
silently dropped. -/
theorem c10_nonrgb_token_silently_dropped
    (files : List Str) (f tok : Str) (c : Char)
    (_hf : f ∈ files)
    (htok : (splitOnChar '-' f).get? 1 = some tok)
    (hc : (tok.map Char.toLower).head? = some c)
    (hr : c ≠ 'r') (hg : c ≠ 'g') (hb : c ≠ 'b') :
    f ∉ (classify files).1.r ∧ f ∉ (classify files).1.g ∧
      f ∉ (classify files).1.b ∧ f ∉ (classify files).2 := by
  have hletter : channelLetter f = some c := by
    unfold channelLetter
    rw [htok]
    exact hc
  refine ⟨fun hx => ?_, fun hx => ?_, fun hx => ?_, fun hx => ?_⟩
  · rcases classify_fold_r files _ f hx with h | h
    · simp at h
    · rw [hletter] at h; exact hr (Option.some_injective _ h)
  · rcases classify_fold_g files _ f hx with h | h
    · simp at h
    · rw [hletter] at h; exact hg (Option.some_injective _ h)
  · rcases classify_fold_b files _ f hx with h | h
    · simp at h
    · rw [hletter] at h; exact hb (Option.some_injective _ h)
  · rcases classify_fold_bad files _ f hx with h | h
    · simp at h
    · rw [hletter] at h; exact (Option.some_ne_none c h).elim

/-- Witness for C10 at the filename 01-yellow.tif. -/
theorem c10_witness :
    str "01-yellow.tif" ∉ (classify [str "01-yellow.tif"]).1.r ∧
      str "01-yellow.tif" ∉ (classify [str "01-yellow.tif"]).1.g ∧
      str "01-yellow.tif" ∉ (classify [str "01-yellow.tif"]).1.b ∧
      str "01-yellow.tif" ∉ (classify [str "01-yellow.tif"]).2 :=
  c10_nonrgb_token_silently_dropped [str "01-yellow.tif"] (str "01-yellow.tif")
    (str "yellow.tif") 'y' (by decide) (by decide) (by decide)
    (by decide) (by decide) (by decide)

set_option maxRecDepth 40000 in
/-- Claim C3 (code bug): the batched error report interpolates only the count
of unclassifiable filenames; it names none of them.  With bad files alpha.tif
and beta.tif the exit message contains the count 2 but neither filename, even
though the source comments promise that all of them are printed. -/
theorem c3_error_report_omits_filenames :
    isSub (str "alpha.tif") (errorMsg [str "alpha.tif", str "beta.tif"]) = false ∧
      isSub (str "beta.tif") (errorMsg [str "alpha.tif", str "beta.tif"]) = false ∧
      isSub (str "2 filename(s)") (errorMsg [str "alpha.tif", str "beta.tif"]) = true := by
  decide

instance {ε α : Type} [DecidableEq ε] [DecidableEq α] : DecidableEq (Except ε α) :=
  fun a b =>
    match a, b with
    | .ok x, .ok y => decidable_of_iff (x = y) (by simp)
    | .error e, .error e2 => decidable_of_iff (e = e2) (by simp)
    | .error _, .ok _ => isFalse (by simp)
    | .ok _, .error _ => isFalse (by simp)

theorem zipWith_sub_self (r : List ℕ) :
    List.zipWith (fun x y => x - y) r r = r.map (fun _ => 0) := by
  rw [List.zipWith_same]
  simp

theorem subPix_self (p : Pix) : subPix p p = zerosPix p := by
  cases p <;> simp [subPix, zerosPix, List.zipWith_same, Nat.sub_self]

theorem gaussian_filter_zero (b : Buf) : gaussian_filter 0 b = b := by
  unfold gaussian_filter
  rw [if_neg]
  norm_num [sigmaEps]

/-- Claim C5 counterexample: exclusion before grouping keys on the literal
substring `-bf`, not on the channel token containing `bf`.  The token of
`01-rbf.tif` contains `bf`, yet the file survives `cleanup_filenames` and is
classified into the red channel list; conversely the token of
`01-red-bf2.tif` (normalized `01-red-bf-2.tif`) is `red`, free of `bf`, yet
the file is excluded. -/
theorem c5_counterexample :
    cleanup_filenames [] [str "01-rbf.tif"] = some ([str "01-rbf.tif"], [], []) ∧
      (splitOnChar '-' (str "01-rbf.tif")).get? 1 = some (str "rbf.tif") ∧
      isSub (str "bf") (str "rbf.tif") = true ∧
      (classify [str "01-rbf.tif"]).1.r = [str "01-rbf.tif"] ∧
      (cleanup_filenames [] [str "01-red-bf2.tif"]).map (fun t => t.1) = some [] ∧
      (splitOnChar '-' (str "01-red-bf-2.tif")).get? 1 = some (str "red") ∧
      isSub (str "bf") (str "red") = false := by
  decide

/-- Claim C5 (corrected): a normalized filename is excluded before grouping
exactly when it contains the substring `-bf`; in particular every kept file
has a channel token that does not start with `bf`, but tokens merely
containing `bf` elsewhere do not cause exclusion, and a later `-bf` segment
excludes a file whose token is `bf`-free. -/
theorem c5_amended_kept_iff_no_dash_bf
    (dCur : Dir) (tifs fmt kept : List Str) (d2 : Dir) (evs : List Event)
    (hfmt : format_filenames tifs = some fmt)
    (hcl : cleanup_filenames dCur tifs = some (kept, d2, evs)) :
    (∀ f, f ∈ kept ↔ f ∈ fmt ∧ isSub (str "-bf") f = false) ∧
      (∀ f tok, f ∈ kept → (splitOnChar '-' f).get? 1 = some tok →
        startsW (str "bf") tok = false) := by
  unfold cleanup_filenames at hcl
  rw [hfmt] at hcl
  simp only [Option.some.injEq, Prod.mk.injEq] at hcl
  obtain ⟨hkept, -, -⟩ := hcl
  subst hkept
  have hmem : ∀ f, f ∈ pySorted (List.filter (fun f => !isSub (str "-bf") f) fmt) ↔
      f ∈ fmt ∧ isSub (str "-bf") f = false := by
    intro f
    unfold pySorted
    rw [mem_sortBy, List.mem_filter]
    simp
  refine ⟨hmem, fun f tok hf htok => ?_⟩
  have hnb : isSub (str "-bf") f = false := ((hmem f).mp hf).2
  by_contra hs
  rw [Bool.not_eq_false] at hs
  rcases token_structure f tok htok with ⟨a, b, hab, -, htw⟩
  have hsb : startsW (str "bf") b = true := startsW_takeWhile _ b (htw ▸ hs)
  have h1 : startsW (str "-bf") ('-' :: b) = true := by
    simp only [str] at hsb ⊢
    simpa [startsW] using hsb
  have h2 : isSub (str "-bf") f = true := by
    rw [hab]
    exact isSub_append_left a (isSub_of_startsW h1)
  rw [h2] at hnb
  exact Bool.true_eq_false.mp hnb

/-- Witness for the amended C5: at the concrete listing `[01-rbf.tif]` the
kept file has the token `rbf.tif`, which indeed does not start with `bf`. -/
theorem c5_witness : startsW (str "bf") (str "rbf.tif") = false :=
  (c5_amended_kept_iff_no_dash_bf [] [str "01-rbf.tif"] [str "01-rbf.tif"]
      [str "01-rbf.tif"] [] [] (by decide) (by decide)).2
    (str "01-rbf.tif") (str "rbf.tif") (by decide) (by decide)

theorem is_two_of_count (colors : Colors) (h : countNonEmpty colors ≠ 2) :
    is_two_channels colors = false := by
  unfold is_two_channels
  simpa using h

theorem allow_two_not_two (d : Dir) (id : Str) (colors : Colors)
    (h : is_two_channels colors = false) :
    allow_two_channels d id colors = .ok (colors, d, []) := by
  unfold allow_two_channels
  rw [h]
  rfl

theorem product3_mid_nil (rs bs : List Str) : product3 rs [] bs = [] := by
  induction rs <;> simp [product3, *]

theorem product3_right_nil (rs gs : List Str) : product3 rs gs [] = [] := by
  induction rs with
  | nil => rfl
  | cons x t ih =>
    simp only [product3, List.flatMap_cons] at ih ⊢
    rw [ih]
    simp

theorem get_uids_skip_empty (pre post : List (Str × List (List Str))) (k : Str) :
    get_uids (pre ++ (k, ([] : List (List Str))) :: post) = get_uids (pre ++ post) := by
  unfold get_uids
  rw [List.foldl_append, List.foldl_cons, List.foldl_append]
  congr 1

/-- Claim C7 counterexample: a directory holding a single acquisition with
only a red channel completes normally with an empty I/O trace — the file is
not passed through to the output stage as a grayscale image (nothing is read
or written at all). -/
theorem c7_counterexample :
    runPipeline [(str "01-red.tif", ⟨str "uint16", .g2 [[5]]⟩)] 0 (str "merged_corrected") =
      ⟨[], none⟩ ∧
      combosOf (classify [str "01-red.tif"]).1 = [] := by
  constructor
  · decide
  · decide

/-- Claim C7 (corrected): an acquisition with exactly one non-empty channel
list yields no RGB combination, and its empty combination list contributes
nothing to the uid map: the acquisition is dropped entirely rather than
passed through as a grayscale image. -/
theorem c7_amended_single_channel_dropped
    (d : Dir) (id : Str) (colors : Colors)
    (h1 : countNonEmpty colors = 1) :
    allow_two_channels d id colors = .ok (colors, d, []) ∧
      combosOf colors = [] ∧
      ∀ pre post k, get_uids (pre ++ (k, ([] : List (List Str))) :: post) =
        get_uids (pre ++ post) := by
  refine ⟨allow_two_not_two d id colors (is_two_of_count colors (by omega)), ?_,
    fun pre post k => get_uids_skip_empty pre post k⟩
  unfold countNonEmpty at h1
  cases hr : colors.r.isEmpty <;> cases hg : colors.g.isEmpty <;>
    cases hb : colors.b.isEmpty <;> rw [hr, hg, hb] at h1 <;> simp at h1
  · rw [List.isEmpty_iff] at hg hb
    unfold combosOf
    rw [hg, product3_mid_nil]
    rfl
  · rw [List.isEmpty_iff] at hr hb
    unfold combosOf
    rw [hr]
    rfl
  · rw [List.isEmpty_iff] at hr hg
    unfold combosOf
    rw [hr]
    rfl

/-- Witness for the amended C7 at a red-only acquisition. -/
theorem c7_witness :
    allow_two_channels [] (str "01") ⟨[str "01-red.tif"], [], []⟩ =
        .ok (⟨[str "01-red.tif"], [], []⟩, [], []) ∧
      combosOf ⟨[str "01-red.tif"], [], []⟩ = [] ∧
      ∀ pre post k, get_uids (pre ++ (k, ([] : List (List Str))) :: post) =
        get_uids (pre ++ post) :=
  c7_amended_single_channel_dropped [] (str "01") ⟨[str "01-red.tif"], [], []⟩ (by decide)

theorem zerosPix_shape (p : Pix) : (zerosPix p).shape = p.shape := by
  cases p with
  | g2 rows => cases rows <;> simp [zerosPix, Pix.shape]
  | g3 vox =>
    cases vox with
    | nil => simp [zerosPix, Pix.shape]
    | cons pl t => cases pl <;> simp [zerosPix, Pix.shape]

theorem allZeroPix_zerosPix (p : Pix) : allZeroPix (zerosPix p) = true := by
  cases p <;> simp [zerosPix, allZeroPix]

theorem length_flatMap_pairs (x : Str) (gs bs : List Str) :
    (gs.flatMap fun y => bs.map fun z => [x, y, z]).length = gs.length * bs.length := by
  induction gs with
  | nil => simp
  | cons y t ih =>
    simp only [List.flatMap_cons, List.length_append, List.length_map, List.length_cons, ih]
    ring

theorem length_product3 (rs gs bs : List Str) :
    (product3 rs gs bs).length = rs.length * (gs.length * bs.length) := by
  induction rs with
  | nil => simp [product3]
  | cons x t ih =>
    simp only [product3] at ih ⊢
    rw [List.flatMap_cons, List.length_append, ih, length_flatMap_pairs]
    simp only [List.length_cons]
    ring

theorem length_combosOf (c : Colors) :
    (combosOf c).length = c.r.length * (c.g.length * c.b.length) := by
  simp [combosOf, length_product3]

/-- Under the two-channel guard exactly one channel list is empty. -/
theorem two_channels_unique_empty (colors : Colors) (h : is_two_channels colors = true) :
    (colors.r = [] ∧ colors.g ≠ [] ∧ colors.b ≠ []) ∨
      (colors.r ≠ [] ∧ colors.g = [] ∧ colors.b ≠ []) ∨
      (colors.r ≠ [] ∧ colors.g ≠ [] ∧ colors.b = []) := by
  obtain ⟨r, g, b⟩ := colors
  rcases r with _ | ⟨rh, rt⟩ <;> rcases g with _ | ⟨gh, gt⟩ <;> rcases b with _ | ⟨bh, bt⟩ <;>
    simp_all [is_two_channels, countNonEmpty]

/-- Characterization of `allow_two_channels` on a two-channel acquisition:
exactly one placeholder is created, named after the single empty channel,
zero-filled from one real file of a populated channel (the last populated
list of the r, g, b iteration supplies the template), staged into the empty
list, and written to the directory. -/
theorem allow_two_spec (d : Dir) (id : Str) (colors : Colors)
    (h : is_two_channels colors = true) :
    ∃ ch dn tmpl,
      dn = dummyNameFor id ch ∧
      ((colors.r = [] ∧ ch = 'r') ∨ (colors.g = [] ∧ ch = 'g') ∨
        (colors.b = [] ∧ ch = 'b')) ∧
      (tmpl ∈ colors.r ∨ tmpl ∈ colors.g ∨ tmpl ∈ colors.b) ∧
      allow_two_channels d id colors = .ok
        ({ r := if colors.r.isEmpty then [dn] else colors.r,
           g := if colors.g.isEmpty then [dn] else colors.g,
           b := if colors.b.isEmpty then [dn] else colors.b },
         fsWrite d dn (zeros_like (fsGet d tmpl)),
         [.readImg tmpl, .writeImg dn (zeros_like (fsGet d tmpl))]) := by
  obtain ⟨r, g, b⟩ := colors
  rcases r with _ | ⟨rh, rt⟩
  · rcases g with _ | ⟨gh, gt⟩
    · rcases b with _ | ⟨bh, bt⟩ <;> simp [is_two_channels, countNonEmpty] at h
    · rcases b with _ | ⟨bh, bt⟩
      · simp [is_two_channels, countNonEmpty] at h
      · refine ⟨'r', dummyNameFor id 'r', bh, rfl, by simp, by simp, ?_⟩
        rcases gt with _ | ⟨g2, gt2⟩ <;> rcases bt with _ | ⟨b2, bt2⟩ <;> rfl
  · rcases g with _ | ⟨gh, gt⟩
    · rcases b with _ | ⟨bh, bt⟩
      · simp [is_two_channels, countNonEmpty] at h
      · refine ⟨'g', dummyNameFor id 'g', bh, rfl, by simp, by simp, ?_⟩
        rcases rt with _ | ⟨r2, rt2⟩ <;> rcases bt with _ | ⟨b2, bt2⟩ <;> rfl
    · rcases b with _ | ⟨bh, bt⟩
      · refine ⟨'b', dummyNameFor id 'b', gh, rfl, by simp, by simp, ?_⟩
        rcases rt with _ | ⟨r2, rt2⟩ <;> rcases gt with _ | ⟨g2, gt2⟩ <;> rfl
      · simp [is_two_channels, countNonEmpty] at h

/-- Claim C4 counterexample: an acquisition with exactly two non-empty
channel lists (two red files, one green, no blue) yields two combinations,
not exactly one. -/
theorem c4_counterexample :
    (tiffs_iterate_combos
        [(str "02-red.tif", ⟨str "uint16", .g2 [[5]]⟩),
         (str "02-red-2.tif", ⟨str "uint16", .g2 [[5]]⟩),
         (str "02-green.tif", ⟨str "uint16", .g2 [[5]]⟩)]
        [(str "02", [str "02-red.tif", str "02-red-2.tif", str "02-green.tif"])]).2.2 =
      .ok [(str "02",
            [[str "02-red.tif", str "02-green.tif", str "02-b.dummy"],
             [str "02-red-2.tif", str "02-green.tif", str "02-b.dummy"]])] ∧
      is_two_channels
        (classify [str "02-red.tif", str "02-red-2.tif", str "02-green.tif"]).1 = true ∧
      ([[str "02-red.tif", str "02-green.tif", str "02-b.dummy"],
        [str "02-red-2.tif", str "02-green.tif", str "02-b.dummy"]] : List (List Str)).length ≠ 1 := by
  decide

/-- Claim C4 (corrected): on a two-channel acquisition the enumerator
synthesizes exactly one zero-filled placeholder whose shape and dtype equal
those of a real file from a populated sibling channel, stages it as the
missing channel's backing file, and produces as many combinations as the
product of the three resulting list lengths — exactly one only when the two
populated lists are singletons. -/
theorem c4_amended_two_channel_dummy (d : Dir) (id : Str) (colors : Colors)
    (h : is_two_channels colors = true) :
    ∃ ch dn tmpl colors2,
      dn = dummyNameFor id ch ∧
      ((colors.r = [] ∧ ch = 'r') ∨ (colors.g = [] ∧ ch = 'g') ∨
        (colors.b = [] ∧ ch = 'b')) ∧
      (tmpl ∈ colors.r ∨ tmpl ∈ colors.g ∨ tmpl ∈ colors.b) ∧
      colors2 = { r := if colors.r.isEmpty then [dn] else colors.r,
                  g := if colors.g.isEmpty then [dn] else colors.g,
                  b := if colors.b.isEmpty then [dn] else colors.b } ∧
      allow_two_channels d id colors = .ok
        (colors2, fsWrite d dn (zeros_like (fsGet d tmpl)),
         [.readImg tmpl, .writeImg dn (zeros_like (fsGet d tmpl))]) ∧
      (zeros_like (fsGet d tmpl)).dtype = (fsGet d tmpl).dtype ∧
      (zeros_like (fsGet d tmpl)).pix.shape = (fsGet d tmpl).pix.shape ∧
      allZeroPix (zeros_like (fsGet d tmpl)).pix = true ∧
      (combosOf colors2).length = colors2.r.length * (colors2.g.length * colors2.b.length) ∧
      (colors2.r.length = 1 ∧ colors2.g.length = 1 ∧ colors2.b.length = 1 →
        (combosOf colors2).length = 1) := by
  rcases allow_two_spec d id colors h with ⟨ch, dn, tmpl, hdn, hempty, htmpl, heq⟩
  refine ⟨ch, dn, tmpl, _, hdn, hempty, htmpl, rfl, heq, rfl, zerosPix_shape _,
    allZeroPix_zerosPix _, length_combosOf _, ?_⟩
  rintro ⟨h1, h2, h3⟩
  rw [length_combosOf _, h1, h2, h3]

/-- Witness for the amended C4 at one red file, one green file, no blue. -/
theorem c4_witness :
    ∃ ch dn tmpl colors2,
      dn = dummyNameFor (str "01") ch ∧
      ((([str "01-red.tif"] : List Str) = [] ∧ ch = 'r') ∨
        (([str "01-green.tif"] : List Str) = [] ∧ ch = 'g') ∨
        (([] : List Str) = [] ∧ ch = 'b')) ∧
      (tmpl ∈ ([str "01-red.tif"] : List Str) ∨ tmpl ∈ ([str "01-green.tif"] : List Str) ∨
        tmpl ∈ ([] : List Str)) ∧
      colors2 = { r := if ([str "01-red.tif"] : List Str).isEmpty then [dn] else [str "01-red.tif"],
                  g := if ([str "01-green.tif"] : List Str).isEmpty then [dn] else [str "01-green.tif"],
                  b := if ([] : List Str).isEmpty then [dn] else [] } ∧
      allow_two_channels [] (str "01") ⟨[str "01-red.tif"], [str "01-green.tif"], []⟩ = .ok
        (colors2, fsWrite [] dn (zeros_like (fsGet [] tmpl)),
         [.readImg tmpl, .writeImg dn (zeros_like (fsGet [] tmpl))]) ∧
      (zeros_like (fsGet [] tmpl)).dtype = (fsGet [] tmpl).dtype ∧
      (zeros_like (fsGet [] tmpl)).pix.shape = (fsGet [] tmpl).pix.shape ∧
      allZeroPix (zeros_like (fsGet [] tmpl)).pix = true ∧
      (combosOf colors2).length = colors2.r.length * (colors2.g.length * colors2.b.length) ∧
      (colors2.r.length = 1 ∧ colors2.g.length = 1 ∧ colors2.b.length = 1 →
        (combosOf colors2).length = 1) :=
  c4_amended_two_channel_dummy [] (str "01")
    ⟨[str "01-red.tif"], [str "01-green.tif"], []⟩ (by decide)

theorem pyStrLt_common_prefix (p : Str) (a b : Char) (as2 bs : Str) (hab : a ≠ b) :
    pyStrLt (p ++ a :: as2) (p ++ b :: bs) = decide (a.val < b.val) := by
  induction p with
  | nil => simp [pyStrLt, hab]
  | cons x t ih => simp [pyStrLt, ih]

theorem pySortedDesc_three (x y z : Str) (h1 : pyStrLt y x = true) (h2 : pyStrLt z y = true) :
    pySortedDesc [x, y, z] = [x, y, z] := by
  simp [pySortedDesc, sortBy, insertBy, h1, h2]

theorem mem_product3 {rs gs bs : List Str} {c : List Str} (h : c ∈ product3 rs gs bs) :
    ∃ x y z, c = [x, y, z] ∧ x ∈ rs ∧ y ∈ gs ∧ z ∈ bs := by
  simp only [product3, List.mem_flatMap, List.mem_map] at h
  rcases h with ⟨x, hx, y, hy, z, hz, rfl⟩
  exact ⟨x, y, z, rfl, hx, hy, hz⟩

theorem classify_r_mem (files : List Str) (st : Colors × List Str) (x : Str)
    (hx : x ∈ (files.foldl classifyStep st).1.r) : x ∈ st.1.r ∨ x ∈ files := by
  induction files generalizing st with
  | nil => exact Or.inl hx
  | cons f fs ih =>
    rcases ih (classifyStep st f) hx with h | h
    · unfold classifyStep at h
      rcases hf : channelLetter f with _ | c <;> rw [hf] at h <;> dsimp at h
      · exact Or.inl h
      · split at h
        · simp only [List.mem_append, List.mem_singleton] at h
          rcases h with h | h
          · exact Or.inl h
          · exact Or.inr (h ▸ List.mem_cons_self f fs)
        · split at h
          · exact Or.inl h
          · split at h <;> exact Or.inl h
    · exact Or.inr (List.mem_cons_of_mem f h)

theorem classify_g_mem (files : List Str) (st : Colors × List Str) (x : Str)
    (hx : x ∈ (files.foldl classifyStep st).1.g) : x ∈ st.1.g ∨ x ∈ files := by
  induction files generalizing st with
  | nil => exact Or.inl hx
  | cons f fs ih =>
    rcases ih (classifyStep st f) hx with h | h
    · unfold classifyStep at h
      rcases hf : channelLetter f with _ | c <;> rw [hf] at h <;> dsimp at h
      · exact Or.inl h
      · split at h
        · exact Or.inl h
        · split at h
          · simp only [List.mem_append, List.mem_singleton] at h
            rcases h with h | h
            · exact Or.inl h
            · exact Or.inr (h ▸ List.mem_cons_self f fs)
          · split at h <;> exact Or.inl h
    · exact Or.inr (List.mem_cons_of_mem f h)

theorem classify_b_mem (files : List Str) (st : Colors × List Str) (x : Str)
    (hx : x ∈ (files.foldl classifyStep st).1.b) : x ∈ st.1.b ∨ x ∈ files := by
  induction files generalizing st with
  | nil => exact Or.inl hx
  | cons f fs ih =>
    rcases ih (classifyStep st f) hx with h | h
    · unfold classifyStep at h
      rcases hf : channelLetter f with _ | c <;> rw [hf] at h <;> dsimp at h
      · exact Or.inl h
      · split at h
        · exact Or.inl h
        · split at h
          · exact Or.inl h
          · split at h
            · simp only [List.mem_append, List.mem_singleton] at h
              rcases h with h | h
              · exact Or.inl h
              · exact Or.inr (h ▸ List.mem_cons_self f fs)
            · exact Or.inl h
    · exact Or.inr (List.mem_cons_of_mem f h)

theorem headSeg_of_split (a b : Str) (ha : ('-') ∉ a) : headSeg (a ++ '-' :: b) = a := by
  unfold headSeg
  rw [splitOnChar_append _ _ _ ha]
  rfl

theorem head?_takeWhile {pred : Char → Bool} {b : Str} {c : Char}
    (h : (b.takeWhile pred).head? = some c) : b.head? = some c := by
  cases b with
  | nil => simp [List.takeWhile] at h
  | cons x xs =>
    by_cases hp : pred x
    · rw [List.takeWhile_cons_of_pos hp] at h
      simpa using h
    · rw [List.takeWhile_cons_of_neg hp] at h
      simp at h

/-- A classified filename of an acquisition whose tokens start with
lowercase letters has the literal shape `id ++ '-' :: letter :: rest`. -/
theorem channelLetter_shape (f : Str) (id : Str) (c0 : Char)
    (hseg : headSeg f = id) (hlet : channelLetter f = some c0)
    (hlc : Option.all (fun c => Char.toLower c == c)
        ((((splitOnChar '-' f).get? 1).getD []).head?) = true) :
    ∃ rest, f = id ++ '-' :: c0 :: rest := by
  unfold channelLetter at hlet
  rcases htok : (splitOnChar '-' f).get? 1 with _ | tok <;> rw [htok] at hlet
  · simp at hlet
  · rw [htok] at hlc
    simp only [Option.getD_some] at hlc
    change (List.map Char.toLower tok).head? = some c0 at hlet
    rw [List.head?_map] at hlet
    rcases hhd : tok.head? with _ | c1 <;> rw [hhd] at hlet hlc
    · exact Option.noConfusion hlet
    · have hlet2 : some (Char.toLower c1) = some c0 := hlet
      injection hlet2 with hlet3
      have hlc2 : (Char.toLower c1 == c1) = true := hlc
      rw [beq_iff_eq] at hlc2
      have hc1 : c1 = c0 := by rw [← hlet3, hlc2]
      rcases token_structure f tok htok with ⟨a, b, hab, hna, htw⟩
      have ha2 : a = id := by rw [← hseg, hab, headSeg_of_split a b hna]
      have hb : b.head? = some c1 := head?_takeWhile (htw ▸ hhd)
      cases b with
      | nil => simp at hb
      | cons bh bt =>
        simp only [List.head?_cons, Option.some.injEq] at hb
        exact ⟨bt, by rw [hab, ha2, hb, hc1]⟩

/-- Claim C1 counterexample: with an uppercase channel token the reverse
lexicographic filename sort does not yield Red-Green-Blue order: the single
combination of acquisition 01 with files 01-Red.tif, 01-blue.tif,
01-green.tif comes out Green-Blue-Red. -/
theorem c1_counterexample :
    (tiffs_iterate_combos []
        [(str "01", [str "01-Red.tif", str "01-blue.tif", str "01-green.tif"])]).2.2 =
      .ok [(str "01", [[str "01-green.tif", str "01-blue.tif", str "01-Red.tif"]])] ∧
      str "01-Red.tif" ∈
        (classify [str "01-Red.tif", str "01-blue.tif", str "01-green.tif"]).1.r ∧
      rgbOrderedB (classify [str "01-Red.tif", str "01-blue.tif", str "01-green.tif"]).1
        [str "01-green.tif", str "01-blue.tif", str "01-Red.tif"] = false := by
  decide

/-- Claim C1 (corrected): for an acquisition whose filenames all carry the
grouping id before the first hyphen and whose channel tokens start with
lowercase letters, every generated combination is ordered Red, Green, Blue
(the reverse filename sort coincides with channel order only under that
lowercase proviso, which the uppercase counterexample violates). -/
theorem c1_amended_lowercase_combos_rgb_ordered
    (d : Dir) (id : Str) (files : List Str)
    (hseg : ∀ f ∈ files, headSeg f = id)
    (hlc : ∀ f ∈ files, Option.all (fun c => Char.toLower c == c)
        ((((splitOnChar '-' f).get? 1).getD []).head?) = true) :
    ∀ colors2 d2 evs,
      allow_two_channels d id (classify files).1 = .ok (colors2, d2, evs) →
      ∀ combo ∈ combosOf colors2, rgbOrderedB colors2 combo = true := by
  intro colors2 d2 evs heq combo hcombo
  set colors := (classify files).1 with hcolors
  have hR : ∀ x ∈ colors.r, ∃ rest, x = id ++ '-' :: 'r' :: rest := by
    intro x hx
    have hm : x ∈ files := by
      rcases classify_r_mem files _ x hx with h | h
      · simp at h
      · exact h
    have hl : channelLetter x = some 'r' := by
      rcases classify_fold_r files _ x hx with h | h
      · simp at h
      · exact h
    exact channelLetter_shape x id 'r' (hseg x hm) hl (hlc x hm)
  have hG : ∀ x ∈ colors.g, ∃ rest, x = id ++ '-' :: 'g' :: rest := by
    intro x hx
    have hm : x ∈ files := by
      rcases classify_g_mem files _ x hx with h | h
      · simp at h
      · exact h
    have hl : channelLetter x = some 'g' := by
      rcases classify_fold_g files _ x hx with h | h
      · simp at h
      · exact h
    exact channelLetter_shape x id 'g' (hseg x hm) hl (hlc x hm)
  have hB : ∀ x ∈ colors.b, ∃ rest, x = id ++ '-' :: 'b' :: rest := by
    intro x hx
    have hm : x ∈ files := by
      rcases classify_b_mem files _ x hx with h | h
      · simp at h
      · exact h
    have hl : channelLetter x = some 'b' := by
      rcases classify_fold_b files _ x hx with h | h
      · simp at h
      · exact h
    exact channelLetter_shape x id 'b' (hseg x hm) hl (hlc x hm)
  -- the post-placeholder lists keep the same letter-after-id shape
  have hshape : (∀ x ∈ colors2.r, ∃ rest, x = id ++ '-' :: 'r' :: rest) ∧
      (∀ x ∈ colors2.g, ∃ rest, x = id ++ '-' :: 'g' :: rest) ∧
      (∀ x ∈ colors2.b, ∃ rest, x = id ++ '-' :: 'b' :: rest) := by
    cases h2 : is_two_channels colors with
    | false =>
      rw [allow_two_not_two d id colors h2] at heq
      simp only [Except.ok.injEq, Prod.mk.injEq] at heq
      obtain ⟨h3, -, -⟩ := heq
      subst h3
      exact ⟨hR, hG, hB⟩
    | true =>
      rcases allow_two_spec d id colors h2 with ⟨ch, dn, tmpl, hdn, hch, -, heq2⟩
      rw [heq2] at heq
      simp only [Except.ok.injEq, Prod.mk.injEq] at heq
      obtain ⟨h3, -, -⟩ := heq
      subst h3
      rcases two_channels_unique_empty colors h2 with ⟨he, hg2, hb2⟩ | ⟨hr2, he, hb2⟩ |
        ⟨hr2, hg2, he⟩
      · have hc : ch = 'r' := by
          rcases hch with ⟨-, hc⟩ | ⟨hx, -⟩ | ⟨hx, -⟩
          · exact hc
          · exact absurd hx hg2
          · exact absurd hx hb2
        refine ⟨?_, ?_, ?_⟩
        · intro x hx
          rw [he] at hx
          simp only [List.isEmpty_nil, if_true, List.mem_singleton] at hx
          exact ⟨str ".dummy", by rw [hx, hdn, hc]; rfl⟩
        · intro x hx
          have hfg2 : colors.g.isEmpty = false := by simpa [List.isEmpty_iff] using hg2
          rw [hfg2] at hx
          simp only [Bool.false_eq_true, if_false] at hx
          exact hG x hx
        · intro x hx
          have hfb2 : colors.b.isEmpty = false := by simpa [List.isEmpty_iff] using hb2
          rw [hfb2] at hx
          simp only [Bool.false_eq_true, if_false] at hx
          exact hB x hx
      · have hc : ch = 'g' := by
          rcases hch with ⟨hx, -⟩ | ⟨-, hc⟩ | ⟨hx, -⟩
          · exact absurd hx hr2
          · exact hc
          · exact absurd hx hb2
        refine ⟨?_, ?_, ?_⟩
        · intro x hx
          have hfr2 : colors.r.isEmpty = false := by simpa [List.isEmpty_iff] using hr2
          rw [hfr2] at hx
          simp only [Bool.false_eq_true, if_false] at hx
          exact hR x hx
        · intro x hx
          rw [he] at hx
          simp only [List.isEmpty_nil, if_true, List.mem_singleton] at hx
          exact ⟨str ".dummy", by rw [hx, hdn, hc]; rfl⟩
        · intro x hx
          have hfb2 : colors.b.isEmpty = false := by simpa [List.isEmpty_iff] using hb2
          rw [hfb2] at hx
          simp only [Bool.false_eq_true, if_false] at hx
          exact hB x hx
      · have hc : ch = 'b' := by
          rcases hch with ⟨hx, -⟩ | ⟨hx, -⟩ | ⟨-, hc⟩
          · exact absurd hx hr2
          · exact absurd hx hg2
          · exact hc
        refine ⟨?_, ?_, ?_⟩
        · intro x hx
          have hfr2 : colors.r.isEmpty = false := by simpa [List.isEmpty_iff] using hr2
          rw [hfr2] at hx
          simp only [Bool.false_eq_true, if_false] at hx
          exact hR x hx
        · intro x hx
          have hfg2 : colors.g.isEmpty = false := by simpa [List.isEmpty_iff] using hg2
          rw [hfg2] at hx
          simp only [Bool.false_eq_true, if_false] at hx
          exact hG x hx
        · intro x hx
          rw [he] at hx
          simp only [List.isEmpty_nil, if_true, List.mem_singleton] at hx
          exact ⟨str ".dummy", by rw [hx, hdn, hc]; rfl⟩
  obtain ⟨hR2, hG2, hB2⟩ := hshape
  unfold combosOf at hcombo
  rw [List.mem_map] at hcombo
  rcases hcombo with ⟨c0, hc0, rfl⟩
  rcases mem_product3 hc0 with ⟨x, y, z, rfl, hx, hy, hz⟩
  rcases hR2 x hx with ⟨rx, hxe⟩
  rcases hG2 y hy with ⟨ry, hye⟩
  rcases hB2 z hz with ⟨rz, hze⟩
  have hyx : pyStrLt y x = true := by
    rw [hxe, hye, show id ++ '-' :: 'g' :: ry = (id ++ [ '-' ]) ++ 'g' :: ry from by simp,
      show id ++ '-' :: 'r' :: rx = (id ++ [ '-' ]) ++ 'r' :: rx from by simp,
      pyStrLt_common_prefix _ _ _ _ _ (by decide)]
    decide
  have hzy : pyStrLt z y = true := by
    rw [hye, hze, show id ++ '-' :: 'g' :: ry = (id ++ [ '-' ]) ++ 'g' :: ry from by simp,
      show id ++ '-' :: 'b' :: rz = (id ++ [ '-' ]) ++ 'b' :: rz from by simp,
      pyStrLt_common_prefix _ _ _ _ _ (by decide)]
    decide
  rw [pySortedDesc_three x y z hyx hzy]
  simp only [rgbOrderedB, Bool.and_eq_true]
  exact ⟨⟨List.elem_eq_true_of_mem hx, List.elem_eq_true_of_mem hy⟩,
    List.elem_eq_true_of_mem hz⟩

/-- Witness for the amended C1: with lowercase tokens the combination of
acquisition 01 is Red-Green-Blue ordered. -/
theorem c1_witness :
    rgbOrderedB (classify [str "01-red.tif", str "01-blue.tif", str "01-green.tif"]).1
      [str "01-red.tif", str "01-green.tif", str "01-blue.tif"] = true :=
  c1_amended_lowercase_combos_rgb_ordered [] (str "01")
    [str "01-red.tif", str "01-blue.tif", str "01-green.tif"]
    (by decide) (by decide)
    (classify [str "01-red.tif", str "01-blue.tif", str "01-green.tif"]).1 [] []
    (by decide)
    [str "01-red.tif", str "01-green.tif", str "01-blue.tif"] (by decide)

/-- Claim C8 counterexample: illumination correction with sigma = 0 and the
default subtract method does not return the unmodified input: on the
one-pixel buffer with value 5 it returns 0. -/
theorem c8_counterexample :
    illum_correction ⟨str "uint8", .g2 [[5]]⟩ 0 (str "subtract") ≠
      Except.ok ⟨str "uint8", .g2 [[5]]⟩ := by
  unfold illum_correction
  rw [gaussian_filter_zero, if_pos rfl]
  decide

/-- Claim C8 (corrected): with sigma = 0 the Gaussian blur is skipped
(scipy filters no axis), so the subtract method computes x minus x: the
correction returns the all-zero buffer of the same shape and dtype, not the
unmodified input. -/
theorem c8_amended_sigma_zero_gives_zero_buffer (x : Buf) :
    illum_correction x 0 (str "subtract") = Except.ok (zeros_like x) := by
  unfold illum_correction
  rw [gaussian_filter_zero, if_pos rfl, subPix_self]
  rfl

theorem endsW_append_self (p a : Str) : endsW p (a ++ p) = true := by
  unfold endsW
  rw [List.reverse_append]
  exact startsW_append_self p.reverse a.reverse

theorem endsW_dummyNameFor (id : Str) (ch : Char) :
    endsW (str ".dummy") (dummyNameFor id ch) = true := by
  have h : dummyNameFor id ch = (id ++ [ '-', ch]) ++ str ".dummy" := by
    unfold dummyNameFor
    rw [List.append_assoc]
    rfl
  rw [h]
  exact endsW_append_self _ _

theorem fsWrite_self_mem (d : Dir) (f : Str) (b : Buf) :
    f ∈ (fsWrite d f b).map Prod.fst := by
  unfold fsWrite
  split
  · rename_i hany
    rw [List.any_eq_true] at hany
    rcases hany with ⟨q, hq, hqf⟩
    rw [List.map_map, List.mem_map]
    refine ⟨q, hq, ?_⟩
    simp only [Function.comp_apply, hqf, if_pos]
  · rw [List.map_append, List.mem_append]
    exact Or.inr (by simp)

theorem fsWrite_mem_mono (d : Dir) (f x : Str) (b : Buf)
    (hx : x ∈ d.map Prod.fst) : x ∈ (fsWrite d f b).map Prod.fst := by
  unfold fsWrite
  split
  · rw [List.mem_map] at hx
    rcases hx with ⟨q, hq, hqx⟩
    rw [List.map_map, List.mem_map]
    refine ⟨q, hq, ?_⟩
    by_cases hqf : (q.1 == f) = true
    · simp only [Function.comp_apply, hqf, if_pos]
      rw [beq_iff_eq] at hqf
      rw [← hqx, hqf]
    · simp only [Function.comp_apply, hqf]
      rw [if_neg (by simp [hqf])]
      exact hqx
  · rw [List.map_append, List.mem_append]
    exact Or.inl hx

theorem safe_renames_events (pairs : List (Str × Str)) :
    ∀ st : Dir × List Event, (∀ e ∈ st.2, ∃ o n, e = Event.rename o n) →
      ∀ e ∈ (pairs.foldl (fun st p =>
        if st.1.any (fun q => q.1 == p.2) then st
        else
          match st.1.find? (fun q => q.1 == p.1) with
          | some entry =>
            ((st.1.filter (fun q => !(q.1 == p.1))) ++ [(p.2, entry.2)],
             st.2 ++ [.rename p.1 p.2])
          | none => st) st).2, ∃ o n, e = Event.rename o n := by
  induction pairs with
  | nil => intro st hst e he; exact hst e he
  | cons p rest ih =>
    intro st hst e he
    rw [List.foldl_cons] at he
    refine ih _ ?_ e he
    split
    · exact hst
    · split
      · intro e2 he2
        rcases List.mem_append.mp he2 with h | h
        · exact hst e2 h
        · simp only [List.mem_singleton] at h
          exact ⟨p.1, p.2, h⟩
      · exact hst

theorem cleanup_filenames_events (d : Dir) (tifs kept : List Str) (d2 : Dir)
    (evs : List Event) (h : cleanup_filenames d tifs = some (kept, d2, evs)) :
    ∀ e ∈ evs, ∃ o n, e = Event.rename o n := by
  unfold cleanup_filenames at h
  rcases hf : format_filenames tifs with _ | fmt <;> rw [hf] at h
  · exact Option.noConfusion h
  · simp only [Option.some.injEq, Prod.mk.injEq] at h
    obtain ⟨-, -, hevs⟩ := h
    rw [← hevs]
    exact safe_renames_events (tifs.zip fmt) (d, []) (by simp)

theorem preprocStep_events (d : Dir) (sigma : ℚ)
    (st : List Event × Except Halt (List (Str × Buf))) (p : Str × List Str) :
    ∀ e ∈ (preprocStep d sigma st p).1, e ∈ st.1 ∨ ∃ f, e = Event.readImg f := by
  obtain ⟨evs, res⟩ := st
  cases res with
  | error h2 => intro e he; exact Or.inl he
  | ok rgb =>
    intro e he
    unfold preprocStep at he
    dsimp only at he
    have hread : ∀ e2, e2 ∈ evs ++ p.2.map Event.readImg →
        e2 ∈ evs ∨ ∃ f, e2 = Event.readImg f := by
      intro e2 he2
      rcases List.mem_append.mp he2 with h | h
      · exact Or.inl h
      · rw [List.mem_map] at h
        rcases h with ⟨f, -, hf⟩
        exact Or.inr ⟨f, hf.symm⟩
    split at he
    · exact hread e he
    · split at he
      · exact hread e he
      · exact hread e he

theorem preproc_fold_reads (d : Dir) (sigma : ℚ) (uids : List (Str × List Str)) :
    ∀ st : List Event × Except Halt (List (Str × Buf)),
      (∀ e ∈ st.1, ∃ f, e = Event.readImg f) →
      ∀ e ∈ (uids.foldl (preprocStep d sigma) st).1, ∃ f, e = Event.readImg f := by
  induction uids with
  | nil => intro st hst e he; exact hst e he
  | cons p rest ih =>
    intro st hst e he
    rw [List.foldl_cons] at he
    refine ih _ ?_ e he
    intro e2 he2
    rcases preprocStep_events d sigma st p e2 he2 with h | h
    · exact hst e2 h
    · exact h

theorem preproc_imgs_reads (d : Dir) (imgs : List (Str × List (List Str))) (sigma : ℚ) :
    ∀ e ∈ (preproc_imgs d imgs sigma).1, ∃ f, e = Event.readImg f := by
  unfold preproc_imgs
  exact preproc_fold_reads d sigma (get_uids imgs) ([], .ok []) (by simp)

theorem badOfChannels_acc (channels : List (Str × List Str)) (a : List Str) :
    channels.foldl (fun acc p => acc ++ (classify p.2).2) a = a ++ badOfChannels channels := by
  induction channels generalizing a with
  | nil => simp [badOfChannels]
  | cons p rest ih =>
    unfold badOfChannels
    rw [List.foldl_cons, List.foldl_cons, ih, ih ([] ++ (classify p.2).2)]
    simp

theorem badOfChannels_cons (p : Str × List Str) (rest : List (Str × List Str)) :
    badOfChannels (p :: rest) = (classify p.2).2 ++ badOfChannels rest := by
  show List.foldl (fun acc p => acc ++ (classify p.2).2) [] (p :: rest) = _
  rw [List.foldl_cons]
  simpa using badOfChannels_acc rest ([] ++ (classify p.2).2)

/-- The enumeration fold never fails: it threads the directory (adding
placeholder files), emits only template reads and zero-filled `.dummy`
writes, collects all bad files in order, and every written file name is in
the final directory. -/
theorem tiffs_fold_spec (channels : List (Str × List Str)) :
    ∀ (d0 : Dir) (evs0 : List Event) (imgs0 : List (Str × List (List Str))) (bad0 : List Str),
      ∃ d1 evs1 imgs1,
        channels.foldl tiffsStep (d0, evs0, .ok (imgs0, bad0)) =
          (d1, evs0 ++ evs1, .ok (imgs0 ++ imgs1, bad0 ++ badOfChannels channels)) ∧
        (∀ e ∈ evs1, (∃ f, e = Event.readImg f) ∨
          (∃ f b2, e = Event.writeImg f b2 ∧ endsW (str ".dummy") f = true ∧
            allZeroPix b2.pix = true)) ∧
        (∀ f b2, Event.writeImg f b2 ∈ evs1 → f ∈ d1.map Prod.fst) ∧
        (∀ x, x ∈ d0.map Prod.fst → x ∈ d1.map Prod.fst) := by
  induction channels with
  | nil =>
    intro d0 evs0 imgs0 bad0
    exact ⟨d0, [], [], by simp [badOfChannels], by simp, by simp, fun x h => h⟩
  | cons p rest ih =>
    intro d0 evs0 imgs0 bad0
    rw [List.foldl_cons]
    rcases hcp : classify p.2 with ⟨colors, badf⟩
    cases h2 : is_two_channels colors with
    | false =>
      have hs : tiffsStep (d0, evs0, .ok (imgs0, bad0)) p =
          (d0, evs0, .ok (imgs0 ++ [(p.1, combosOf colors)], bad0 ++ badf)) := by
        simp only [tiffsStep, hcp, allow_two_not_two d0 p.1 colors h2]
        simp
      rw [hs]
      rcases ih d0 evs0 (imgs0 ++ [(p.1, combosOf colors)]) (bad0 ++ badf) with
        ⟨d1, evs1, imgs1, heq, hev, hw, hmono⟩
      refine ⟨d1, evs1, (p.1, combosOf colors) :: imgs1, ?_, hev, hw, hmono⟩
      rw [heq, badOfChannels_cons, hcp]
      simp
    | true =>
      rcases allow_two_spec d0 p.1 colors h2 with ⟨ch, dn, tmpl, hdn, hch, htm, heq2⟩
      have hs : tiffsStep (d0, evs0, .ok (imgs0, bad0)) p =
          (fsWrite d0 dn (zeros_like (fsGet d0 tmpl)),
           evs0 ++ [Event.readImg tmpl,
             Event.writeImg dn (zeros_like (fsGet d0 tmpl))],
           .ok (imgs0 ++ [(p.1, combosOf
              { r := if colors.r.isEmpty then [dn] else colors.r,
                g := if colors.g.isEmpty then [dn] else colors.g,
                b := if colors.b.isEmpty then [dn] else colors.b })],
             bad0 ++ badf)) := by
        simp only [tiffsStep, hcp, heq2]
      rw [hs]
      rcases ih (fsWrite d0 dn (zeros_like (fsGet d0 tmpl)))
        (evs0 ++ [Event.readImg tmpl, Event.writeImg dn (zeros_like (fsGet d0 tmpl))])
        (imgs0 ++ [(p.1, combosOf
          { r := if colors.r.isEmpty then [dn] else colors.r,
            g := if colors.g.isEmpty then [dn] else colors.g,
            b := if colors.b.isEmpty then [dn] else colors.b })])
        (bad0 ++ badf) with ⟨d1, evs1, imgs1, heq, hev, hw, hmono⟩
      refine ⟨d1,
        [Event.readImg tmpl, Event.writeImg dn (zeros_like (fsGet d0 tmpl))] ++ evs1,
        (p.1, combosOf
          { r := if colors.r.isEmpty then [dn] else colors.r,
            g := if colors.g.isEmpty then [dn] else colors.g,
            b := if colors.b.isEmpty then [dn] else colors.b }) :: imgs1, ?_, ?_, ?_, ?_⟩
      · rw [heq, badOfChannels_cons, hcp]
        simp
      · intro e he
        rcases List.mem_append.mp he with h | h
        · rcases List.mem_cons.mp h with h | h
          · exact Or.inl ⟨tmpl, h⟩
          · simp only [List.mem_singleton] at h
            refine Or.inr ⟨dn, zeros_like (fsGet d0 tmpl), h, ?_, allZeroPix_zerosPix _⟩
            rw [hdn]
            exact endsW_dummyNameFor p.1 ch
        · exact hev e h
      · intro f b2 hf
        rcases List.mem_append.mp hf with h | h
        · rcases List.mem_cons.mp h with h | h
          · exact Event.noConfusion h
          · simp only [List.mem_singleton] at h
            obtain ⟨h3, h4⟩ := Event.writeImg.inj h
            subst h3
            exact hmono f (fsWrite_self_mem d0 f _)
        · exact hw f b2 h
      · intro x hx
        exact hmono x (fsWrite_mem_mono d0 dn x _ hx)

/-- Top-level specification of `tiffs_iterate_combos`. -/
theorem tiffs_spec (d : Dir) (channels : List (Str × List Str)) :
    ∃ d1 evs imgs,
      tiffs_iterate_combos d channels =
        (d1, evs,
          if (badOfChannels channels).isEmpty then .ok imgs
          else .error (.exitMsg (errorMsg (badOfChannels channels)))) ∧
      (∀ e ∈ evs, (∃ f, e = Event.readImg f) ∨
        (∃ f b2, e = Event.writeImg f b2 ∧ endsW (str ".dummy") f = true ∧
          allZeroPix b2.pix = true)) ∧
      (∀ f b2, Event.writeImg f b2 ∈ evs → f ∈ d1.map Prod.fst) ∧
      (∀ x, x ∈ d.map Prod.fst → x ∈ d1.map Prod.fst) := by
  rcases tiffs_fold_spec channels d [] [] [] with ⟨d1, evs1, imgs1, heq, hev, hw, hmono⟩
  refine ⟨d1, evs1, imgs1, ?_, hev, hw, hmono⟩
  unfold tiffs_iterate_combos
  rw [heq]
  simp only [List.nil_append]
  split <;> rfl

theorem foldl_fsWrite_mono (key : Str × Buf → Str) (outs : List (Str × Buf)) :
    ∀ (dd : Dir) (x : Str), x ∈ dd.map Prod.fst →
      x ∈ (outs.foldl (fun dd p => fsWrite dd (key p) p.2) dd).map Prod.fst := by
  induction outs with
  | nil => intro dd x hx; exact hx
  | cons p rest ih =>
    intro dd x hx
    rw [List.foldl_cons]
    exact ih _ x (fsWrite_mem_mono dd (key p) x p.2 hx)

theorem foldl_fsWrite_mem (key : Str × Buf → Str) (outs : List (Str × Buf)) :
    ∀ (dd : Dir) (p : Str × Buf), p ∈ outs →
      key p ∈ (outs.foldl (fun dd p => fsWrite dd (key p) p.2) dd).map Prod.fst := by
  induction outs with
  | nil => intro dd p hp; simp at hp
  | cons q rest ih =>
    intro dd p hp
    rw [List.foldl_cons]
    rcases List.mem_cons.mp hp with h | h
    · subst h
      exact foldl_fsWrite_mono key rest _ _ (fsWrite_self_mem dd (key p) p.2)
    · exact ih _ p h

set_option maxRecDepth 200000 in
/-- Claim C2 counterexample: a directory with a two-channel acquisition and
one unclassifiable filename performs image I/O — it reads the green template
and writes the zero placeholder — before exiting with the batched error. -/
theorem c2_counterexample :
    (runPipeline
        [(str "01-green.tif", ⟨str "uint16", .g2 [[5, 5], [5, 5]]⟩),
         (str "01-red.tif", ⟨str "uint16", .g2 [[5, 5], [5, 5]]⟩),
         (str "badfile.tif", ⟨str "uint16", .g2 [[3]]⟩)] 0 (str "merged_corrected")).halt =
      some (.exitMsg (errorMsg [str "badfile.tif"])) ∧
      (runPipeline
        [(str "01-green.tif", ⟨str "uint16", .g2 [[5, 5], [5, 5]]⟩),
         (str "01-red.tif", ⟨str "uint16", .g2 [[5, 5], [5, 5]]⟩),
         (str "badfile.tif", ⟨str "uint16", .g2 [[3]]⟩)] 0 (str "merged_corrected")).trace =
      [Event.readImg (str "01-green.tif"),
       Event.writeImg (str "01-b.dummy") ⟨str "uint16", .g2 [[0, 0], [0, 0]]⟩] := by
  decide

/-- Claim C2 (corrected): when any filename is unclassifiable the pipeline
exits with the batched error before the correction and composition stage —
nothing is removed and no composite is written — but placeholder synthesis
for two-channel acquisitions may read a template and write a zero-filled
`.dummy` buffer before the halt, so image I/O is not entirely absent. -/
theorem c2_amended_abort_before_composition
    (d : Dir) (sigma : ℚ) (od : Str) (kept : List Str) (d2 : Dir) (revs : List Event)
    (hclean : cleanup_filenames d
        ((d.map (fun p => p.1)).filter (fun f => endsW (str ".tif") f)) =
      some (kept, d2, revs))
    (hbad : badOfChannels (group_images kept) ≠ []) :
    (runPipeline d sigma od).halt =
        some (.exitMsg (errorMsg (badOfChannels (group_images kept)))) ∧
      (∀ f b2, Event.writeImg f b2 ∈ (runPipeline d sigma od).trace →
        endsW (str ".dummy") f = true ∧ allZeroPix b2.pix = true) ∧
      (∀ f, Event.removeFile f ∉ (runPipeline d sigma od).trace) := by
  rcases tiffs_spec d2 (group_images kept) with ⟨d1, evs, imgs, heq, hev, hw, hmono⟩
  have hie : (badOfChannels (group_images kept)).isEmpty = false := by
    simpa [List.isEmpty_iff] using hbad
  have hres : runPipeline d sigma od =
      ⟨revs ++ evs, some (.exitMsg (errorMsg (badOfChannels (group_images kept))))⟩ := by
    unfold runPipeline
    simp only [hclean]
    simp only [heq, hie]
    simp
  rw [hres]
  refine ⟨rfl, ?_, ?_⟩
  · intro f b2 hf
    rcases List.mem_append.mp hf with h | h
    · obtain ⟨o, n, he⟩ := cleanup_filenames_events d _ kept d2 revs hclean _ h
      exact Event.noConfusion he
    · rcases hev _ h with ⟨f2, he⟩ | ⟨f2, b3, he, hdum, hzero⟩
      · exact Event.noConfusion he
      · obtain ⟨h1, h2⟩ := Event.writeImg.inj he
        subst h1
        subst h2
        exact ⟨hdum, hzero⟩
  · intro f hf
    rcases List.mem_append.mp hf with h | h
    · obtain ⟨o, n, he⟩ := cleanup_filenames_events d _ kept d2 revs hclean _ h
      exact Event.noConfusion he
    · rcases hev _ h with ⟨f2, he⟩ | ⟨f2, b3, he, -, -⟩ <;> exact Event.noConfusion he

/-- Witness for the amended C2 at the concrete bad directory. -/
theorem c2_witness :
    (runPipeline
        [(str "01-green.tif", ⟨str "uint16", .g2 [[7]]⟩),
         (str "01-red.tif", ⟨str "uint16", .g2 [[7]]⟩),
         (str "badname.tif", ⟨str "uint16", .g2 [[7]]⟩)] 0 (str "out")).halt =
      some (.exitMsg (errorMsg (badOfChannels (group_images
        [str "01-green.tif", str "01-red.tif", str "badname.tif"])))) ∧
      (∀ f b2, Event.writeImg f b2 ∈
          (runPipeline
            [(str "01-green.tif", ⟨str "uint16", .g2 [[7]]⟩),
             (str "01-red.tif", ⟨str "uint16", .g2 [[7]]⟩),
             (str "badname.tif", ⟨str "uint16", .g2 [[7]]⟩)] 0 (str "out")).trace →
        endsW (str ".dummy") f = true ∧ allZeroPix b2.pix = true) ∧
      (∀ f, Event.removeFile f ∉
        (runPipeline
          [(str "01-green.tif", ⟨str "uint16", .g2 [[7]]⟩),
           (str "01-red.tif", ⟨str "uint16", .g2 [[7]]⟩),
           (str "badname.tif", ⟨str "uint16", .g2 [[7]]⟩)] 0 (str "out")).trace) :=
  c2_amended_abort_before_composition
    [(str "01-green.tif", ⟨str "uint16", .g2 [[7]]⟩),
     (str "01-red.tif", ⟨str "uint16", .g2 [[7]]⟩),
     (str "badname.tif", ⟨str "uint16", .g2 [[7]]⟩)] 0 (str "out")
    [str "01-green.tif", str "01-red.tif", str "badname.tif"]
    [(str "01-green.tif", ⟨str "uint16", .g2 [[7]]⟩),
     (str "01-red.tif", ⟨str "uint16", .g2 [[7]]⟩),
     (str "badname.tif", ⟨str "uint16", .g2 [[7]]⟩)] []
    (by decide) (by decide)

set_option maxRecDepth 200000 in
/-- Claim C9 counterexample: on the batched abort the placeholder written for
acquisition 02 is left on disk — the trace ends at the exit with no remove
event at all. -/
theorem c9_counterexample :
    (runPipeline
        [(str "02-green.tif", ⟨str "uint16", .g2 [[5, 5], [5, 5]]⟩),
         (str "02-red.tif", ⟨str "uint16", .g2 [[5, 5], [5, 5]]⟩),
         (str "junk.tif", ⟨str "uint16", .g2 [[3]]⟩)] 0 (str "merged_corrected")).trace =
      [Event.readImg (str "02-green.tif"),
       Event.writeImg (str "02-b.dummy") ⟨str "uint16", .g2 [[0, 0], [0, 0]]⟩] ∧
      (runPipeline
        [(str "02-green.tif", ⟨str "uint16", .g2 [[5, 5], [5, 5]]⟩),
         (str "02-red.tif", ⟨str "uint16", .g2 [[5, 5], [5, 5]]⟩),
         (str "junk.tif", ⟨str "uint16", .g2 [[3]]⟩)] 0 (str "merged_corrected")).halt =
      some (.exitMsg (errorMsg [str "junk.tif"])) := by
  decide

/-- Claim C9 (corrected): the dummy cleanup runs only on the success path —
every `.dummy` file written by a normally-completing run is removed before
exit, while a run that halts abnormally (including the batched
unclassifiable-filename abort) performs no remove at all, leaving any written
placeholder on disk. -/
theorem c9_amended_cleanup_only_on_success (d : Dir) (sigma : ℚ) (od : Str) :
    ((runPipeline d sigma od).halt ≠ none →
      ∀ f, Event.removeFile f ∉ (runPipeline d sigma od).trace) ∧
    ((runPipeline d sigma od).halt = none →
      ∀ f b2, Event.writeImg f b2 ∈ (runPipeline d sigma od).trace →
        endsW (str ".dummy") f = true →
        Event.removeFile f ∈ (runPipeline d sigma od).trace) := by
  rcases hcl : cleanup_filenames d
      ((d.map (fun p => p.1)).filter (fun f => endsW (str ".tif") f)) with
    _ | ⟨kept, d2, revs⟩
  · have hres : runPipeline d sigma od = ⟨[], some .pyError⟩ := by
      unfold runPipeline
      simp only [hcl]
    rw [hres]
    exact ⟨fun _ f hf => by simp at hf, fun hn => Option.noConfusion hn⟩
  · rcases tiffs_spec d2 (group_images kept) with ⟨d1, evs, imgs, heq, hev, hw, hmono⟩
    cases hie : (badOfChannels (group_images kept)).isEmpty with
    | false =>
      have heq2 : tiffs_iterate_combos d2 (group_images kept) =
          (d1, evs,
           Except.error (Halt.exitMsg (errorMsg (badOfChannels (group_images kept))))) := by
        rw [heq, hie]
        rfl
      have hres : runPipeline d sigma od =
          ⟨revs ++ evs,
           some (.exitMsg (errorMsg (badOfChannels (group_images kept))))⟩ := by
        unfold runPipeline
        simp only [hcl]
        simp only [heq2]
      rw [hres]
      refine ⟨fun _ f hf => ?_, fun hn => Option.noConfusion hn⟩
      rcases List.mem_append.mp hf with h | h
      · obtain ⟨o, n, he⟩ := cleanup_filenames_events d _ kept d2 revs hcl _ h
        exact Event.noConfusion he
      · rcases hev _ h with ⟨f2, he⟩ | ⟨f2, b3, he, -, -⟩ <;> exact Event.noConfusion he
    | true =>
      have heq2 : tiffs_iterate_combos d2 (group_images kept) =
          (d1, evs, Except.ok imgs) := by
        rw [heq, hie]
        rfl
      rcases hpp : preproc_imgs d1 imgs sigma with ⟨evs3, res3⟩
      have hreads : ∀ e ∈ evs3, ∃ f, e = Event.readImg f := by
        have h3 := preproc_imgs_reads d1 imgs sigma
        rw [hpp] at h3
        exact h3
      cases res3 with
      | error h3 =>
        have hres : runPipeline d sigma od = ⟨revs ++ evs ++ evs3, some h3⟩ := by
          unfold runPipeline
          simp only [hcl]
          simp only [heq2]
          simp only [hpp]
        rw [hres]
        refine ⟨fun _ f hf => ?_, fun hn => Option.noConfusion hn⟩
        rcases List.mem_append.mp hf with h | h
        · rcases List.mem_append.mp h with h4 | h4
          · obtain ⟨o, n, he⟩ := cleanup_filenames_events d _ kept d2 revs hcl _ h4
            exact Event.noConfusion he
          · rcases hev _ h4 with ⟨f2, he⟩ | ⟨f2, b3, he, -, -⟩ <;> exact Event.noConfusion he
        · obtain ⟨f2, he⟩ := hreads _ h
          exact Event.noConfusion he
      | ok rgb =>
        have hres : runPipeline d sigma od =
            ⟨revs ++ (evs ++ (evs3 ++
              ((outfile_names rgb).map (fun p => Event.writeImg (od ++ '/' :: p.1) p.2) ++
              ((((outfile_names rgb).foldl
                  (fun dd p => fsWrite dd (od ++ '/' :: p.1) p.2) d1).map Prod.fst).filter
                (endsW (str ".dummy"))).map Event.removeFile))),
             none⟩ := by
          unfold runPipeline
          simp only [hcl]
          simp only [heq2]
          simp only [hpp]
          simp only [List.append_assoc]
        rw [hres]
        refine ⟨fun hn => absurd rfl hn, fun _ f b2 hf hdum => ?_⟩
        have hind4 : f ∈ ((outfile_names rgb).foldl
            (fun dd p => fsWrite dd (od ++ '/' :: p.1) p.2) d1).map Prod.fst := by
          rcases List.mem_append.mp hf with h | h
          · obtain ⟨o, n, he⟩ := cleanup_filenames_events d _ kept d2 revs hcl _ h
            exact Event.noConfusion he
          rcases List.mem_append.mp h with h | h
          · have hf1 : f ∈ d1.map Prod.fst := hw f b2 h
            exact foldl_fsWrite_mono (fun p => od ++ '/' :: p.1) (outfile_names rgb) d1 f hf1
          rcases List.mem_append.mp h with h | h
          · obtain ⟨f2, he⟩ := hreads _ h
            exact Event.noConfusion he
          rcases List.mem_append.mp h with h | h
          · rw [List.mem_map] at h
            rcases h with ⟨p2, hp2, he2⟩
            obtain ⟨h4, h5⟩ := Event.writeImg.inj he2
            rw [← h4]
            exact foldl_fsWrite_mem (fun p => od ++ '/' :: p.1) (outfile_names rgb) d1 p2 hp2
          · rw [List.mem_map] at h
            rcases h with ⟨x2, -, he2⟩
            exact Event.noConfusion he2
        refine List.mem_append.mpr (Or.inr (List.mem_append.mpr (Or.inr
          (List.mem_append.mpr (Or.inr (List.mem_append.mpr (Or.inr ?_)))))))
        rw [List.mem_map]
        refine ⟨f, ?_, rfl⟩
        rw [List.mem_filter]
        exact ⟨hind4, hdum⟩

/-- Witness for the amended C9: a clean two-channel run writes the
placeholder 01-b.dummy and later removes it. -/
theorem c9_witness :
    Event.removeFile (str "01-b.dummy") ∈
      (runPipeline
        [(str "01-green.tif", ⟨str "uint16", .g2 [[5, 5], [5, 5]]⟩),
         (str "01-red.tif", ⟨str "uint16", .g2 [[5, 5], [5, 5]]⟩)] 0
        (str "merged_corrected")).trace :=
  (c9_amended_cleanup_only_on_success
      [(str "01-green.tif", ⟨str "uint16", .g2 [[5, 5], [5, 5]]⟩),
       (str "01-red.tif", ⟨str "uint16", .g2 [[5, 5], [5, 5]]⟩)] 0
      (str "merged_corrected")).2 (by decide) (str "01-b.dummy")
    ⟨str "uint16", .g2 [[0, 0], [0, 0]]⟩ (by decide) (by decide)

/-! ### Idempotence of the normalizer: string toolbox -/

theorem takeWhile_all_append (p : Char → Bool) (u : Str) (v : Char) (w : Str)
    (hu : ∀ c ∈ u, p c = true) (hv : p v = false) :
    (u ++ v :: w).takeWhile p = u := by
  induction u with
  | nil => simp [List.takeWhile_cons, hv]
  | cons x xs ih =>
    have hx : p x = true := hu x (List.mem_cons_self x xs)
    have hxs : ∀ c ∈ xs, p c = true := fun c hc => hu c (List.mem_cons_of_mem x hc)
    simp [List.takeWhile_cons, hx, ih hxs]

theorem mem_takeWhile_pred {p : Char → Bool} {l : Str} {x : Char}
    (h : x ∈ l.takeWhile p) : p x = true := by
  induction l with
  | nil => simp [List.takeWhile] at h
  | cons c cs ih =>
    rw [List.takeWhile_cons] at h
    by_cases hc : p c = true
    · rw [if_pos hc] at h
      rcases List.mem_cons.mp h with h1 | h1
      · exact h1 ▸ hc
      · exact ih h1
    · rw [if_neg hc] at h
      simp at h

theorem takeWhile_subset_mem {p : Char → Bool} {l : Str} {x : Char}
    (h : x ∈ l.takeWhile p) : x ∈ l := by
  induction l with
  | nil => simp [List.takeWhile] at h
  | cons c cs ih =>
    rw [List.takeWhile_cons] at h
    by_cases hc : p c = true
    · rw [if_pos hc] at h
      rcases List.mem_cons.mp h with h1 | h1
      · exact h1 ▸ List.mem_cons_self c cs
      · exact List.mem_cons_of_mem c (ih h1)
    · rw [if_neg hc] at h
      simp at h

theorem dropWhile_shape (p : Char → Bool) (l : Str) :
    l.dropWhile p = [] ∨ ∃ c t, l.dropWhile p = c :: t ∧ p c = false := by
  induction l with
  | nil => exact Or.inl rfl
  | cons x xs ih =>
    rw [List.dropWhile_cons]
    by_cases hx : p x = true
    · rw [if_pos hx]; exact ih
    · rw [if_neg hx]
      exact Or.inr ⟨x, xs, rfl, Bool.not_eq_true _ ▸ (by simpa using hx)⟩

/-- The maximal trailing digit run after a non-digit character. -/
theorem digitSuffix_append (a : Str) (c : Char) (D : Str)
    (hD : ∀ x ∈ D, x.isDigit = true) (hc : c.isDigit = false) :
    digitSuffix (a ++ c :: D) = D := by
  unfold digitSuffix
  rw [List.reverse_append, List.reverse_cons, List.append_assoc, List.singleton_append]
  rw [takeWhile_all_append _ _ _ _ (fun x hx => hD x (List.mem_reverse.mp hx)) hc]
  exact List.reverse_reverse D

theorem digitSuffix_all (s : Str) : ∀ c ∈ digitSuffix s, c.isDigit = true := by
  intro c hc
  exact mem_takeWhile_pred (List.mem_reverse.mp hc)

theorem dropDigit_append_suffix (s : Str) :
    dropDigitSuffix s ++ digitSuffix s = s := by
  unfold dropDigitSuffix digitSuffix
  rw [← List.reverse_append, List.takeWhile_append_dropWhile, List.reverse_reverse]

theorem dropDigitSuffix_shape (s : Str) :
    dropDigitSuffix s = [] ∨
      ∃ a c, dropDigitSuffix s = a ++ [c] ∧ c.isDigit = false := by
  unfold dropDigitSuffix
  rcases dropWhile_shape Char.isDigit s.reverse with h | ⟨c, t, h, hc⟩
  · rw [h]; exact Or.inl rfl
  · rw [h]
    exact Or.inr ⟨t.reverse, c, by simp, hc⟩

theorem digitSuffix_nil_iff_last (s : Str) :
    digitSuffix s = [] ↔ ∀ x, s.getLast? = some x → x.isDigit = false := by
  unfold digitSuffix
  cases hs : s.reverse with
  | nil =>
    have : s = [] := by simpa using congrArg List.reverse hs
    subst this
    simp
  | cons c tl =>
    have hlast : s.getLast? = some c := by
      rw [← List.head?_reverse, hs, List.head?_cons]
    rw [List.takeWhile_cons]
    constructor
    · intro h x hx
      rw [hlast] at hx
      injection hx with hx
      by_cases hc : c.isDigit = true
      · rw [if_pos hc] at h; simp at h
      · rw [← hx]; simpa using hc
    · intro h
      rw [if_neg (by simp [h c hlast])]
      rfl

theorem getLast?_append_right (x r : Str) (hr : r ≠ []) :
    (x ++ r).getLast? = r.getLast? := by
  rw [List.getLast?_append]
  cases h : r.getLast? with
  | none => exact absurd (List.getLast?_eq_none_iff.mp h) hr
  | some y => rfl

theorem digitSuffix_nil_append (x r : Str) (hr : r ≠ []) :
    (digitSuffix (x ++ r) = []) ↔ (digitSuffix r = []) := by
  rw [digitSuffix_nil_iff_last, digitSuffix_nil_iff_last,
    getLast?_append_right x r hr]

theorem joinWith_cons_ne (sep : Str) (a : Str) (r : List Str) (hr : r ≠ []) :
    joinWith sep (a :: r) = a ++ sep ++ joinWith sep r := by
  cases r with
  | nil => exact absurd rfl hr
  | cons b t => rfl

theorem startsW_digit_boundary :
    ∀ (a p : Str), (∀ x ∈ p, x.isDigit = true) → p ≠ [] →
      ∀ (c : Char), c.isDigit = false → ∀ (b : Str),
      startsW p (a ++ c :: b) = startsW p a := by
  intro a
  induction a with
  | nil =>
    intro p hp hpn c hc b
    cases p with
    | nil => exact absurd rfl hpn
    | cons x ps =>
      have hx : x.isDigit = true := hp x (List.mem_cons_self x ps)
      have hne : x ≠ c := fun he => by
        rw [he] at hx
        rw [hx] at hc
        exact Bool.noConfusion hc
      show startsW (x :: ps) (c :: b) = startsW (x :: ps) []
      simp [startsW, hne]
  | cons y as ih =>
    intro p hp hpn c hc b
    cases p with
    | nil => exact absurd rfl hpn
    | cons x ps =>
      show startsW (x :: ps) (y :: (as ++ c :: b)) = startsW (x :: ps) (y :: as)
      unfold startsW
      cases ps with
      | nil => simp [startsW]
      | cons x2 ps2 =>
        rw [ih (x2 :: ps2) (fun z hz => hp z (List.mem_cons_of_mem x hz)) (by simp) c hc b]

theorem splitOnChar_append_last (c : Char) (A L : Str) (hL : c ∉ L) :
    splitOnChar c (A ++ c :: L) = splitOnChar c A ++ [L] := by
  induction A with
  | nil =>
    show splitOnChar c (c :: L) = [[]] ++ [L]
    unfold splitOnChar
    rw [if_pos rfl, splitOnChar_not_mem c L hL]
    rfl
  | cons x xs ih =>
    show splitOnChar c (x :: (xs ++ c :: L)) = splitOnChar c (x :: xs) ++ [L]
    by_cases hx : x = c
    · unfold splitOnChar
      rw [if_pos hx, if_pos hx, ih]
      rfl
    · unfold splitOnChar
      rw [if_neg hx, if_neg hx, ih]
      cases h : splitOnChar c xs with
      | nil => exact absurd h (splitOnChar_ne_nil c xs)
      | cons h0 t0 => simp [h]

theorem joinWith_splitOnChar (c : Char) (s : Str) :
    joinWith [c] (splitOnChar c s) = s := by
  induction s with
  | nil => rfl
  | cons x xs ih =>
    by_cases hx : x = c
    · show joinWith [c] (splitOnChar c (x :: xs)) = x :: xs
      unfold splitOnChar
      rw [if_pos hx]
      rw [joinWith_cons_ne _ _ _ (splitOnChar_ne_nil c xs), ih]
      rw [hx]
      rfl
    · show joinWith [c] (splitOnChar c (x :: xs)) = x :: xs
      unfold splitOnChar
      rw [if_neg hx]
      cases h : splitOnChar c xs with
      | nil => exact absurd h (splitOnChar_ne_nil c xs)
      | cons h0 t0 =>
        rw [h] at ih
        cases t0 with
        | nil => exact congrArg (fun l => x :: l) ih
        | cons t1 t2 =>
          show (x :: h0) ++ [c] ++ joinWith [c] (t1 :: t2) = x :: xs
          rw [← ih]
          rw [joinWith_cons_ne [c] h0 (t1 :: t2) (by simp)]
          simp

theorem headD_split_append (c : Char) (p q : Str) (hp : c ∉ p) :
    (splitOnChar c (p ++ c :: q)).headD [] = p := by
  rw [splitOnChar_append c p q hp]
  rfl

theorem tail_join_split_append (c : Char) (p q : Str) (hp : c ∉ p) :
    joinWith [c] ((splitOnChar c (p ++ c :: q)).tail) = q := by
  rw [splitOnChar_append c p q hp]
  show joinWith [c] (splitOnChar c q) = q
  exact joinWith_splitOnChar c q

theorem last_occ_decomp (c : Char) (t : Str) :
    c ∉ t ∨ ∃ A L, t = A ++ c :: L ∧ c ∉ L := by
  by_cases h : c ∈ t
  · rcases firstOcc c t.reverse (List.mem_reverse.mpr h) with ⟨a, b, hab, hna⟩
    right
    refine ⟨b.reverse, a.reverse, ?_, fun hm => hna (List.mem_reverse.mp hm)⟩
    have h2 := congrArg List.reverse hab
    rw [List.reverse_reverse] at h2
    rw [h2]
    simp
  · exact Or.inl h

theorem headSeg_tail_decomp (c : Char) (t : Str) :
    ∃ p, (splitOnChar c t).headD [] = p ∧ c ∉ p ∧
      ((t = p ∧ joinWith [c] ((splitOnChar c t).tail) = []) ∨
       ∃ q, t = p ++ c :: q ∧ joinWith [c] ((splitOnChar c t).tail) = q) := by
  by_cases h : c ∈ t
  · rcases firstOcc c t h with ⟨p, q, ht, hp⟩
    refine ⟨p, ?_, hp, Or.inr ⟨q, ht, ?_⟩⟩
    · rw [ht]; exact headD_split_append c p q hp
    · rw [ht]; exact tail_join_split_append c p q hp
  · refine ⟨t, ?_, h, Or.inl ⟨rfl, ?_⟩⟩
    · rw [splitOnChar_not_mem c t h]; rfl
    · rw [splitOnChar_not_mem c t h]; rfl

theorem splitOnStrF_cons_eq (sep : Str) (f : Nat) (c : Char) (cs : Str) :
    splitOnStrF sep (f + 1) (c :: cs) =
      if startsW sep (c :: cs) = true ∧ sep ≠ [] then
        [] :: splitOnStrF sep f ((c :: cs).drop sep.length)
      else
        match splitOnStrF sep f cs with
        | hd :: tl => (c :: hd) :: tl
        | [] => [[c]] := rfl

theorem splitOnStrF_ne_nil (sep : Str) : ∀ (f : Nat) (s : Str), splitOnStrF sep f s ≠ [] := by
  intro f
  induction f with
  | zero => intro s; cases s <;> simp [splitOnStrF]
  | succ f ih =>
    intro s
    cases s with
    | nil => simp [splitOnStrF]
    | cons c cs =>
      rw [splitOnStrF_cons_eq]
      by_cases hc : startsW sep (c :: cs) = true ∧ sep ≠ []
      · rw [if_pos hc]; simp
      · rw [if_neg hc]
        cases h : splitOnStrF sep f cs <;> simp

theorem splitOnStr_ne_nil (sep s : Str) : splitOnStr sep s ≠ [] :=
  splitOnStrF_ne_nil sep s.length s

theorem splitOnStrF_fuel2 (sep : Str) : ∀ (f1 f2 : Nat) (s : Str),
    s.length ≤ f1 → s.length ≤ f2 → splitOnStrF sep f1 s = splitOnStrF sep f2 s := by
  intro f1
  induction f1 with
  | zero =>
    intro f2 s hs1 _
    have h0 : s = [] := List.length_eq_zero.mp (Nat.le_zero.mp hs1)
    subst h0
    cases f2 <;> rfl
  | succ f ih =>
    intro f2 s hs1 hs2
    cases s with
    | nil => cases f2 <;> rfl
    | cons c cs =>
      cases f2 with
      | zero => simp at hs2
      | succ f2 =>
        rw [splitOnStrF_cons_eq, splitOnStrF_cons_eq]
        by_cases hc : startsW sep (c :: cs) = true ∧ sep ≠ []
        · rw [if_pos hc, if_pos hc]
          have hsep1 : 1 ≤ sep.length := by
            cases hsp : sep with
            | nil => exact absurd hsp hc.2
            | cons a b => simp
          have hb1 : ((c :: cs).drop sep.length).length ≤ f := by
            rw [List.length_drop]
            simp only [List.length_cons] at hs1 ⊢
            omega
          have hb2 : ((c :: cs).drop sep.length).length ≤ f2 := by
            rw [List.length_drop]
            simp only [List.length_cons] at hs2 ⊢
            omega
          rw [ih f2 _ hb1 hb2]
        · rw [if_neg hc, if_neg hc]
          rw [ih f2 cs (Nat.succ_le_succ_iff.mp hs1) (Nat.succ_le_succ_iff.mp hs2)]

theorem splitOnStr_cons (sep : Str) (c : Char) (cs : Str) :
    splitOnStr sep (c :: cs) =
      if startsW sep (c :: cs) = true ∧ sep ≠ [] then
        [] :: splitOnStr sep ((c :: cs).drop sep.length)
      else
        match splitOnStr sep cs with
        | hd :: tl => (c :: hd) :: tl
        | [] => [[c]] := by
  show splitOnStrF sep (cs.length + 1) (c :: cs) = _
  rw [splitOnStrF_cons_eq]
  by_cases hc : startsW sep (c :: cs) = true ∧ sep ≠ []
  · rw [if_pos hc, if_pos hc]
    have hsep1 : 1 ≤ sep.length := by
      cases hsp : sep with
      | nil => exact absurd hsp hc.2
      | cons a b => simp
    have hb : ((c :: cs).drop sep.length).length ≤ cs.length := by
      rw [List.length_drop]
      simp only [List.length_cons]
      omega
    rw [splitOnStrF_fuel2 sep cs.length ((c :: cs).drop sep.length).length _ hb (Nat.le_refl _)]
    rfl
  · rw [if_neg hc, if_neg hc]
    rfl

theorem splitOnStr_startsW (sep s : Str) (hsep : sep ≠ []) (h : startsW sep s = true) :
    splitOnStr sep s = [] :: splitOnStr sep (s.drop sep.length) := by
  rcases startsW_exists h with ⟨t, ht⟩
  subst ht
  cases hsp : sep with
  | nil => exact absurd hsp hsep
  | cons e es =>
    rw [hsp] at h
    show splitOnStr (e :: es) (e :: (es ++ t)) = [] :: splitOnStr (e :: es) (((e :: es) ++ t).drop (e :: es).length)
    rw [splitOnStr_cons]
    rw [if_pos ⟨h, by simp⟩]
    rw [List.drop_left]
    rw [show List.drop (e :: es).length (e :: (es ++ t)) = t from List.drop_left (e :: es) t]

theorem getLast?_decomp : ∀ (l : Str) (x : Char), l.getLast? = some x → l = l.dropLast ++ [x] := by
  intro l
  induction l with
  | nil => intro x hx; exact Option.noConfusion hx
  | cons c cs ih =>
    intro x hx
    cases cs with
    | nil =>
      simp only [List.getLast?_singleton] at hx
      injection hx with hx
      rw [hx]
      rfl
    | cons d ds =>
      rw [List.getLast?_cons_cons] at hx
      have h2 := ih x hx
      show c :: (d :: ds) = c :: ((d :: ds).dropLast ++ [x])
      rw [← h2]

theorem joinWith_splitOnStr (sep : Str) (hsep : sep ≠ []) :
    ∀ s, joinWith sep (splitOnStr sep s) = s := by
  suffices h : ∀ n s, s.length ≤ n → joinWith sep (splitOnStr sep s) = s from
    fun s => h s.length s (Nat.le_refl _)
  intro n
  induction n with
  | zero =>
    intro s hs
    have h0 : s = [] := List.length_eq_zero.mp (Nat.le_zero.mp hs)
    subst h0
    rfl
  | succ n ih =>
    intro s hs
    by_cases hst : startsW sep s = true
    · rcases startsW_exists hst with ⟨t, ht⟩
      have hsep1 : 1 ≤ sep.length := by
        cases hsp : sep with
        | nil => exact absurd hsp hsep
        | cons a b => simp
      rw [splitOnStr_startsW sep s hsep hst]
      rw [joinWith_cons_ne sep [] _ (splitOnStr_ne_nil sep _)]
      have hdrop : s.drop sep.length = t := by rw [ht]; exact List.drop_left sep t
      have hbt : t.length ≤ n := by
        have := congrArg List.length ht
        rw [List.length_append] at this
        omega
      rw [hdrop, ih t hbt, ht]
      simp
    · cases s with
      | nil => rfl
      | cons c cs =>
        rw [splitOnStr_cons]
        rw [if_neg (fun hcc => hst hcc.1)]
        have ih2 := ih cs (Nat.succ_le_succ_iff.mp hs)
        cases h2 : splitOnStr sep cs with
        | nil => exact absurd h2 (splitOnStr_ne_nil sep cs)
        | cons h0 t0 =>
          rw [h2] at ih2
          show joinWith sep ((c :: h0) :: t0) = c :: cs
          cases t0 with
          | nil => exact congrArg (fun l => c :: l) ih2
          | cons t1 t2 =>
            show (c :: h0) ++ sep ++ joinWith sep (t1 :: t2) = c :: cs
            rw [← ih2, joinWith_cons_ne sep h0 (t1 :: t2) (by simp)]
            simp

theorem splitOnStr_append_sep (sep : Str) (hsep : sep ≠ [])
    (hdig : ∀ x ∈ sep, x.isDigit = true) :
    ∀ u, (∀ x, u.getLast? = some x → x.isDigit = false) →
      splitOnStr sep (u ++ sep) = splitOnStr sep u ++ [[]] := by
  suffices h : ∀ n u, u.length ≤ n → (∀ x, u.getLast? = some x → x.isDigit = false) →
      splitOnStr sep (u ++ sep) = splitOnStr sep u ++ [[]] from
    fun u hu => h u.length u (Nat.le_refl _) hu
  intro n
  induction n with
  | zero =>
    intro u hu hlast
    have h0 : u = [] := List.length_eq_zero.mp (Nat.le_zero.mp hu)
    subst h0
    show splitOnStr sep ([] ++ sep) = [[]] ++ [[]]
    rw [List.nil_append]
    have hss : startsW sep sep = true := by
      have := startsW_append_self sep []
      rwa [List.append_nil] at this
    rw [splitOnStr_startsW sep sep hsep hss, List.drop_length]
    rfl
  | succ n ih =>
    intro u hu hlast
    by_cases hunil : u = []
    · subst hunil
      show splitOnStr sep ([] ++ sep) = [[]] ++ [[]]
      rw [List.nil_append]
      have hss : startsW sep sep = true := by
        have := startsW_append_self sep []
        rwa [List.append_nil] at this
      rw [splitOnStr_startsW sep sep hsep hss, List.drop_length]
      rfl
    · obtain ⟨c, cs, rfl⟩ : ∃ c cs, u = c :: cs := by
        cases u with
        | nil => exact absurd rfl hunil
        | cons c cs => exact ⟨c, cs, rfl⟩
      have hune : (c :: cs : Str) ≠ [] := by simp
      have hsep1 : 1 ≤ sep.length := by
        cases hsp : sep with
        | nil => exact absurd hsp hsep
        | cons a b => simp
      by_cases hst : startsW sep (c :: cs) = true
      · rcases startsW_exists hst with ⟨t, htu⟩
        have hts : startsW sep ((c :: cs) ++ sep) = true := by
          rw [htu, List.append_assoc]
          exact startsW_append_self sep _
        rw [splitOnStr_startsW sep ((c :: cs) ++ sep) hsep hts,
          splitOnStr_startsW sep (c :: cs) hsep hst]
        have hd1 : ((c :: cs) ++ sep).drop sep.length = t ++ sep := by
          rw [htu, List.append_assoc]
          exact List.drop_left sep _
        have hd2 : (c :: cs : Str).drop sep.length = t := by
          rw [htu]
          exact List.drop_left sep t
        have hbt : t.length ≤ n := by
          have := congrArg List.length htu
          rw [List.length_append] at this
          simp only [List.length_cons] at hu this
          omega
        have hlt : ∀ x, t.getLast? = some x → x.isDigit = false := by
          intro x hx
          apply hlast x
          rw [htu, getLast?_append_right sep t (fun h0 => by rw [h0] at hx; exact Option.noConfusion hx)]
          exact hx
        rw [hd1, hd2, ih t hbt hlt]
        rfl
      · have hstf : startsW sep (c :: cs) = false := by
          cases hb : startsW sep (c :: cs) with
          | false => rfl
          | true => exact absurd hb hst
        rcases Option.isSome_iff_exists.mp (List.getLast?_isSome.mpr hune) with ⟨x, hgl⟩
        have hx : x.isDigit = false := hlast x hgl
        have hdec := getLast?_decomp (c :: cs) x hgl
        have hbound1 : startsW sep ((c :: cs) ++ sep) = startsW sep (c :: cs : Str).dropLast := by
          conv_lhs => rw [hdec, List.append_assoc, List.singleton_append]
          exact startsW_digit_boundary (c :: cs : Str).dropLast sep hdig hsep x hx sep
        have hbound2 : startsW sep (c :: cs) = startsW sep (c :: cs : Str).dropLast := by
          conv_lhs => rw [hdec]
          exact startsW_digit_boundary (c :: cs : Str).dropLast sep hdig hsep x hx []
        have hsw : startsW sep (c :: (cs ++ sep)) = false := by
          show startsW sep ((c :: cs) ++ sep) = false
          rw [hbound1, ← hbound2]
          exact hstf
        show splitOnStr sep (c :: (cs ++ sep)) = splitOnStr sep (c :: cs) ++ [[]]
        rw [splitOnStr_cons sep c (cs ++ sep), splitOnStr_cons sep c cs]
        rw [if_neg (fun hcc => by rw [hsw] at hcc; exact Bool.noConfusion hcc.1)]
        rw [if_neg (fun hcc => by rw [hstf] at hcc; exact Bool.noConfusion hcc.1)]
        have hbcs : cs.length ≤ n := by
          simpa using hu
        have hlcs : ∀ x2, cs.getLast? = some x2 → x2.isDigit = false := by
          intro x2 hx2
          apply hlast x2
          have hcsne : cs ≠ [] := fun h0 => by rw [h0] at hx2; exact Option.noConfusion hx2
          exact (getLast?_append_right [c] cs hcsne).trans hx2
        rw [ih cs hbcs hlcs]
        cases h2 : splitOnStr sep cs with
        | nil => exact absurd h2 (splitOnStr_ne_nil sep cs)
        | cons h0 t0 => simp

theorem replaceAllF_cons_eq (pat : Str) (f : Nat) (c : Char) (cs : Str) :
    replaceAllF pat (f + 1) (c :: cs) =
      if startsW pat (c :: cs) = true ∧ pat ≠ [] then
        replaceAllF pat f ((c :: cs).drop pat.length)
      else
        c :: replaceAllF pat f cs := rfl

theorem replaceAllF_fuel2 (pat : Str) : ∀ (f1 f2 : Nat) (s : Str),
    s.length ≤ f1 → s.length ≤ f2 → replaceAllF pat f1 s = replaceAllF pat f2 s := by
  intro f1
  induction f1 with
  | zero =>
    intro f2 s hs1 _
    have h0 : s = [] := List.length_eq_zero.mp (Nat.le_zero.mp hs1)
    subst h0
    cases f2 <;> rfl
  | succ f ih =>
    intro f2 s hs1 hs2
    cases s with
    | nil => cases f2 <;> rfl
    | cons c cs =>
      cases f2 with
      | zero => simp at hs2
      | succ f2 =>
        rw [replaceAllF_cons_eq, replaceAllF_cons_eq]
        by_cases hc : startsW pat (c :: cs) = true ∧ pat ≠ []
        · rw [if_pos hc, if_pos hc]
          have hsep1 : 1 ≤ pat.length := by
            cases hsp : pat with
            | nil => exact absurd hsp hc.2
            | cons a b => simp
          have hb1 : ((c :: cs).drop pat.length).length ≤ f := by
            rw [List.length_drop]
            simp only [List.length_cons] at hs1 ⊢
            omega
          have hb2 : ((c :: cs).drop pat.length).length ≤ f2 := by
            rw [List.length_drop]
            simp only [List.length_cons] at hs2 ⊢
            omega
          rw [ih f2 _ hb1 hb2]
        · rw [if_neg hc, if_neg hc]
          rw [ih f2 cs (Nat.succ_le_succ_iff.mp hs1) (Nat.succ_le_succ_iff.mp hs2)]

theorem replaceAll_cons (pat : Str) (c : Char) (cs : Str) :
    replaceAll pat (c :: cs) =
      if startsW pat (c :: cs) = true ∧ pat ≠ [] then
        replaceAll pat ((c :: cs).drop pat.length)
      else
        c :: replaceAll pat cs := by
  show replaceAllF pat (cs.length + 1) (c :: cs) = _
  rw [replaceAllF_cons_eq]
  by_cases hc : startsW pat (c :: cs) = true ∧ pat ≠ []
  · rw [if_pos hc, if_pos hc]
    have hsep1 : 1 ≤ pat.length := by
      cases hsp : pat with
      | nil => exact absurd hsp hc.2
      | cons a b => simp
    have hb : ((c :: cs).drop pat.length).length ≤ cs.length := by
      rw [List.length_drop]
      simp only [List.length_cons]
      omega
    exact replaceAllF_fuel2 pat cs.length ((c :: cs).drop pat.length).length _ hb (Nat.le_refl _)
  · rw [if_neg hc, if_neg hc]
    rfl

theorem replaceAll_startsW (pat s : Str) (hpn : pat ≠ []) (h : startsW pat s = true) :
    replaceAll pat s = replaceAll pat (s.drop pat.length) := by
  rcases startsW_exists h with ⟨t, ht⟩
  subst ht
  cases hsp : pat with
  | nil => exact absurd hsp hpn
  | cons e es =>
    rw [hsp] at h
    show replaceAll (e :: es) (e :: (es ++ t)) = replaceAll (e :: es) (((e :: es) ++ t).drop (e :: es).length)
    rw [replaceAll_cons]
    rw [if_pos ⟨h, by simp⟩]
    rw [List.drop_left]
    rw [show List.drop (e :: es).length (e :: (es ++ t)) = t from List.drop_left (e :: es) t]

theorem replaceAllF_sub (pat : Str) : ∀ (f : Nat) (s : Str), ∀ x ∈ replaceAllF pat f s, x ∈ s := by
  intro f
  induction f with
  | zero =>
    intro s x hx
    cases s with
    | nil => exact absurd hx (List.not_mem_nil x)
    | cons c cs => exact hx
  | succ f ih =>
    intro s x hx
    cases s with
    | nil => exact absurd hx (List.not_mem_nil x)
    | cons c cs =>
      rw [replaceAllF_cons_eq] at hx
      by_cases hc : startsW pat (c :: cs) = true ∧ pat ≠ []
      · rw [if_pos hc] at hx
        exact List.drop_subset _ _ (ih _ x hx)
      · rw [if_neg hc] at hx
        rcases List.mem_cons.mp hx with h1 | h1
        · exact h1 ▸ List.mem_cons_self c cs
        · exact List.mem_cons_of_mem c (ih cs x h1)

theorem replaceAll_sub (pat s : Str) : ∀ x ∈ replaceAll pat s, x ∈ s :=
  replaceAllF_sub pat s.length s

theorem replaceAll_digit_boundary (pat : Str) (hp : ∀ x ∈ pat, x.isDigit = true)
    (hpn : pat ≠ []) (c : Char) (hc : c.isDigit = false) (b : Str) :
    ∀ a, replaceAll pat (a ++ c :: b) = replaceAll pat a ++ c :: replaceAll pat b := by
  suffices h : ∀ n a, a.length ≤ n →
      replaceAll pat (a ++ c :: b) = replaceAll pat a ++ c :: replaceAll pat b from
    fun a => h a.length a (Nat.le_refl _)
  intro n
  induction n with
  | zero =>
    intro a ha
    have h0 : a = [] := List.length_eq_zero.mp (Nat.le_zero.mp ha)
    subst h0
    show replaceAll pat (c :: b) = [] ++ c :: replaceAll pat b
    have hsw : startsW pat (c :: b) = false := by
      cases hsp : pat with
      | nil => exact absurd hsp hpn
      | cons e es =>
        have he : e.isDigit = true := hp e (hsp ▸ List.mem_cons_self e es)
        have hne : e ≠ c := fun h2 => by
          rw [h2] at he
          rw [he] at hc
          exact Bool.noConfusion hc
        simp [startsW, hne]
    rw [replaceAll_cons]
    rw [if_neg (fun hcc => by rw [hsw] at hcc; exact Bool.noConfusion hcc.1)]
    rfl
  | succ n ih =>
    intro a ha
    by_cases hanil : a = []
    · subst hanil
      show replaceAll pat (c :: b) = [] ++ c :: replaceAll pat b
      have hsw : startsW pat (c :: b) = false := by
        cases hsp : pat with
        | nil => exact absurd hsp hpn
        | cons e es =>
          have he : e.isDigit = true := hp e (hsp ▸ List.mem_cons_self e es)
          have hne : e ≠ c := fun h2 => by
            rw [h2] at he
            rw [he] at hc
            exact Bool.noConfusion hc
          simp [startsW, hne]
      rw [replaceAll_cons]
      rw [if_neg (fun hcc => by rw [hsw] at hcc; exact Bool.noConfusion hcc.1)]
      rfl
    · obtain ⟨y, as, rfl⟩ : ∃ y as, a = y :: as := by
        cases a with
        | nil => exact absurd rfl hanil
        | cons y as => exact ⟨y, as, rfl⟩
      have hsep1 : 1 ≤ pat.length := by
        cases hsp : pat with
        | nil => exact absurd hsp hpn
        | cons e es => simp
      have hbound : startsW pat ((y :: as) ++ c :: b) = startsW pat (y :: as) :=
        startsW_digit_boundary (y :: as) pat hp hpn c hc b
      by_cases hst : startsW pat (y :: as) = true
      · rcases startsW_exists hst with ⟨t, htu⟩
        have hts : startsW pat ((y :: as) ++ c :: b) = true := by rw [hbound]; exact hst
        rw [replaceAll_startsW pat ((y :: as) ++ c :: b) hpn hts,
          replaceAll_startsW pat (y :: as) hpn hst]
        have hd1 : ((y :: as) ++ c :: b).drop pat.length = t ++ c :: b := by
          rw [htu, List.append_assoc]
          exact List.drop_left pat _
        have hd2 : (y :: as : Str).drop pat.length = t := by
          rw [htu]
          exact List.drop_left pat t
        have hbt : t.length ≤ n := by
          have := congrArg List.length htu
          rw [List.length_append] at this
          simp only [List.length_cons] at ha this
          omega
        rw [hd1, hd2]
        exact ih t hbt
      · have hstf : startsW pat (y :: as) = false := by
          cases hb2 : startsW pat (y :: as) with
          | false => rfl
          | true => exact absurd hb2 hst
        have hsw : startsW pat (y :: (as ++ c :: b)) = false := by
          show startsW pat ((y :: as) ++ c :: b) = false
          rw [hbound]
          exact hstf
        show replaceAll pat (y :: (as ++ c :: b)) = replaceAll pat (y :: as) ++ c :: replaceAll pat b
        rw [replaceAll_cons pat y (as ++ c :: b), replaceAll_cons pat y as]
        rw [if_neg (fun hcc => by rw [hsw] at hcc; exact Bool.noConfusion hcc.1)]
        rw [if_neg (fun hcc => by rw [hstf] at hcc; exact Bool.noConfusion hcc.1)]
        have hbas : as.length ≤ n := by simpa using ha
        rw [ih as hbas]
        rfl

theorem wsSplitAux_no_ws_eq :
    ∀ (s acc : Str), (∀ c ∈ s, c.isWhitespace = false) →
      wsSplitAux s acc = if acc.reverse ++ s = [] then [] else [acc.reverse ++ s] := by
  intro s
  induction s with
  | nil =>
    intro acc _
    show (if acc.isEmpty then [] else [acc.reverse]) = _
    cases acc with
    | nil => simp
    | cons a t => simp
  | cons c cs ih =>
    intro acc hs
    have hc : c.isWhitespace = false := hs c (List.mem_cons_self c cs)
    show (if c.isWhitespace then _ else wsSplitAux cs (c :: acc)) = _
    rw [if_neg (by rw [hc]; exact Bool.noConfusion)]
    rw [ih (c :: acc) (fun x hx => hs x (List.mem_cons_of_mem c hx))]
    have h1 : (c :: acc).reverse ++ cs = acc.reverse ++ c :: cs := by simp
    rw [h1]

theorem collapseWs_fix (s : Str) (hs : ∀ c ∈ s, c.isWhitespace = false) :
    collapseWs s = s := by
  unfold collapseWs wsSplit
  rw [wsSplitAux_no_ws_eq s [] hs]
  cases s with
  | nil => rfl
  | cons c cs =>
    rw [if_neg (by simp)]
    rfl

theorem wsSplitAux_words_no_ws :
    ∀ (s acc : Str), (∀ c ∈ acc, c.isWhitespace = false) →
      ∀ w ∈ wsSplitAux s acc, ∀ c ∈ w, c.isWhitespace = false := by
  intro s
  induction s with
  | nil =>
    intro acc hacc w hw c hc
    by_cases ha : acc.isEmpty
    · rw [show wsSplitAux [] acc = if acc.isEmpty then [] else [acc.reverse] from rfl,
        if_pos ha] at hw
      exact absurd hw (List.not_mem_nil w)
    · rw [show wsSplitAux [] acc = if acc.isEmpty then [] else [acc.reverse] from rfl,
        if_neg ha] at hw
      rcases List.mem_cons.mp hw with h1 | h1
      · subst h1
        exact hacc c (List.mem_reverse.mp hc)
      · exact absurd h1 (List.not_mem_nil w)
  | cons x xs ih =>
    intro acc hacc w hw c hc
    by_cases hx : x.isWhitespace
    · rw [show wsSplitAux (x :: xs) acc =
          if x.isWhitespace then
            (if acc.isEmpty then wsSplitAux xs [] else acc.reverse :: wsSplitAux xs [])
          else wsSplitAux xs (x :: acc) from rfl, if_pos hx] at hw
      by_cases ha : acc.isEmpty
      · rw [if_pos ha] at hw
        exact ih [] (by simp) w hw c hc
      · rw [if_neg ha] at hw
        rcases List.mem_cons.mp hw with h1 | h1
        · subst h1
          exact hacc c (List.mem_reverse.mp hc)
        · exact ih [] (by simp) w h1 c hc
    · rw [show wsSplitAux (x :: xs) acc =
          if x.isWhitespace then
            (if acc.isEmpty then wsSplitAux xs [] else acc.reverse :: wsSplitAux xs [])
          else wsSplitAux xs (x :: acc) from rfl, if_neg hx] at hw
      refine ih (x :: acc) ?_ w hw c hc
      intro z hz
      rcases List.mem_cons.mp hz with h1 | h1
      · subst h1
        exact Bool.eq_false_iff.mpr hx
      · exact hacc z h1

theorem mem_joinWith :
    ∀ (sep : Str) (l : List Str) (c : Char), c ∈ joinWith sep l →
      c ∈ sep ∨ ∃ w ∈ l, c ∈ w := by
  intro sep l
  induction l with
  | nil => intro c hc; exact absurd hc (List.not_mem_nil c)
  | cons a r ih =>
    intro c hc
    cases r with
    | nil =>
      right
      exact ⟨a, List.mem_cons_self a [], hc⟩
    | cons b t =>
      rw [joinWith_cons_ne sep a (b :: t) (by simp)] at hc
      rcases List.mem_append.mp hc with h1 | h1
      · rcases List.mem_append.mp h1 with h2 | h2
        · exact Or.inr ⟨a, List.mem_cons_self a _, h2⟩
        · exact Or.inl h2
      · rcases ih c h1 with h2 | ⟨w, hw, hcw⟩
        · exact Or.inl h2
        · exact Or.inr ⟨w, List.mem_cons_of_mem a hw, hcw⟩

theorem noWs_collapseWs (s : Str) : ∀ c ∈ collapseWs s, c.isWhitespace = false := by
  intro c hc
  rcases mem_joinWith [ '-' ] (wsSplit s) c hc with h1 | ⟨w, hw, hcw⟩
  · rcases List.mem_cons.mp h1 with h2 | h2
    · subst h2; decide
    · exact absurd h2 (List.not_mem_nil c)
  · exact wsSplitAux_words_no_ws s [] (by simp) w hw c hcw

theorem splitOnChar_sub (c : Char) :
    ∀ (s : Str), ∀ w ∈ splitOnChar c s, ∀ x ∈ w, x ∈ s := by
  intro s
  induction s with
  | nil =>
    intro w hw x hx
    rcases List.mem_cons.mp hw with h1 | h1
    · subst h1; exact absurd hx (List.not_mem_nil x)
    · exact absurd h1 (List.not_mem_nil w)
  | cons y ys ih =>
    intro w hw x hx
    by_cases hy : y = c
    · rw [show splitOnChar c (y :: ys) =
          if y = c then [] :: splitOnChar c ys else
            match splitOnChar c ys with
            | h :: t => (y :: h) :: t
            | [] => [[y]] from rfl, if_pos hy] at hw
      rcases List.mem_cons.mp hw with h1 | h1
      · subst h1; exact absurd hx (List.not_mem_nil x)
      · exact List.mem_cons_of_mem y (ih w h1 x hx)
    · rw [show splitOnChar c (y :: ys) =
          if y = c then [] :: splitOnChar c ys else
            match splitOnChar c ys with
            | h :: t => (y :: h) :: t
            | [] => [[y]] from rfl, if_neg hy] at hw
      cases heq : splitOnChar c ys with
      | nil => exact absurd heq (splitOnChar_ne_nil c ys)
      | cons h t =>
        rw [heq] at hw
        rcases List.mem_cons.mp hw with h1 | h1
        · subst h1
          rcases List.mem_cons.mp hx with h2 | h2
          · exact h2 ▸ List.mem_cons_self y ys
          · refine List.mem_cons_of_mem y (ih h ?_ x h2)
            rw [heq]
            exact List.mem_cons_self h t
        · refine List.mem_cons_of_mem y (ih w ?_ x hx)
          rw [heq]
          exact List.mem_cons_of_mem h h1

theorem splitOnStrF_sub (sep : Str) :
    ∀ (f : Nat) (s : Str), ∀ w ∈ splitOnStrF sep f s, ∀ x ∈ w, x ∈ s := by
  intro f
  induction f with
  | zero =>
    intro s w hw x hx
    cases s with
    | nil =>
      rcases List.mem_cons.mp hw with h1 | h1
      · subst h1; exact absurd hx (List.not_mem_nil x)
      · exact absurd h1 (List.not_mem_nil w)
    | cons c cs =>
      rcases List.mem_cons.mp hw with h1 | h1
      · subst h1; exact absurd hx (List.not_mem_nil x)
      · exact absurd h1 (List.not_mem_nil w)
  | succ f ih =>
    intro s w hw x hx
    cases s with
    | nil =>
      rcases List.mem_cons.mp hw with h1 | h1
      · subst h1; exact absurd hx (List.not_mem_nil x)
      · exact absurd h1 (List.not_mem_nil w)
    | cons c cs =>
      rw [splitOnStrF_cons_eq] at hw
      by_cases hc : startsW sep (c :: cs) = true ∧ sep ≠ []
      · rw [if_pos hc] at hw
        rcases List.mem_cons.mp hw with h1 | h1
        · subst h1; exact absurd hx (List.not_mem_nil x)
        · exact List.drop_subset _ _ (ih _ w h1 x hx)
      · rw [if_neg hc] at hw
        cases heq : splitOnStrF sep f cs with
        | nil => exact absurd heq (splitOnStrF_ne_nil sep f cs)
        | cons h t =>
          rw [heq] at hw
          rcases List.mem_cons.mp hw with h1 | h1
          · subst h1
            rcases List.mem_cons.mp hx with h2 | h2
            · exact h2 ▸ List.mem_cons_self c cs
            · refine List.mem_cons_of_mem c (ih cs h ?_ x h2)
              rw [heq]
              exact List.mem_cons_self h t
          · refine List.mem_cons_of_mem c (ih cs w ?_ x hx)
            rw [heq]
            exact List.mem_cons_of_mem h h1

theorem splitOnStr_sub (sep s : Str) : ∀ w ∈ splitOnStr sep s, ∀ x ∈ w, x ∈ s :=
  splitOnStrF_sub sep s.length s

theorem mem_of_dropLast {x : Char} {l : List Char} (h : x ∈ l.dropLast) : x ∈ l := by
  induction l with
  | nil => exact absurd h (List.not_mem_nil x)
  | cons c cs ih =>
    cases cs with
    | nil => exact absurd h (List.not_mem_nil x)
    | cons d ds =>
      rw [List.dropLast_cons₂] at h
      rcases List.mem_cons.mp h with h1 | h1
      · exact h1 ▸ List.mem_cons_self c _
      · exact List.mem_cons_of_mem c (ih h1)

theorem mem_of_dropLast_seg {w : Str} {l : List Str} (h : w ∈ l.dropLast) : w ∈ l := by
  induction l with
  | nil => exact absurd h (List.not_mem_nil w)
  | cons c cs ih =>
    cases cs with
    | nil => exact absurd h (List.not_mem_nil w)
    | cons d ds =>
      rw [List.dropLast_cons₂] at h
      rcases List.mem_cons.mp h with h1 | h1
      · exact h1 ▸ List.mem_cons_self c _
      · exact List.mem_cons_of_mem c (ih h1)

theorem mem_of_tail_seg {w : Str} {l : List Str} (h : w ∈ l.tail) : w ∈ l := by
  cases l with
  | nil => exact absurd h (List.not_mem_nil w)
  | cons a t => exact List.mem_cons_of_mem a h

theorem getLastD_mem_of_ne_nil {l : List Str} (h : l ≠ []) : l.getLastD [] ∈ l := by
  rw [List.getLastD_eq_getLast?]
  rcases Option.isSome_iff_exists.mp (List.getLast?_isSome.mpr h) with ⟨y, hy⟩
  rw [hy]
  exact List.mem_of_getLast?_eq_some hy

theorem headD_mem_of_ne_nil {l : List Str} (h : l ≠ []) : l.headD [] ∈ l := by
  cases l with
  | nil => exact absurd rfl h
  | cons a t => exact List.mem_cons_self a t

theorem digitSuffix_sub (s : Str) : ∀ x ∈ digitSuffix s, x ∈ s := by
  intro x hx
  exact List.mem_reverse.mp (takeWhile_subset_mem (List.mem_reverse.mp hx))

theorem digitPrefix_sub (s : Str) : ∀ x ∈ digitPrefix s, x ∈ s := by
  intro x hx
  exact takeWhile_subset_mem hx

theorem digitPrefix_all (s : Str) : ∀ x ∈ digitPrefix s, x.isDigit = true := by
  intro x hx
  exact mem_takeWhile_pred hx

theorem pyIsDigit_of_all {s : Str} (hne : s ≠ []) (h : ∀ x ∈ s, x.isDigit = true) :
    pyIsDigit s = true := by
  unfold pyIsDigit
  cases s with
  | nil => exact absurd rfl hne
  | cons c cs =>
    have hall : (c :: cs).all Char.isDigit = true := List.all_eq_true.mpr h
    simp [hall]

theorem not_dash_of_digits {l : Str} (h : ∀ x ∈ l, x.isDigit = true) : ('-') ∉ l :=
  fun hm => by have := h _ hm; exact absurd this (by decide)

theorem not_dot_of_digits {l : Str} (h : ∀ x ∈ l, x.isDigit = true) : ('.') ∉ l :=
  fun hm => by have := h _ hm; exact absurd this (by decide)

/-- A string on which both correction branches of `format_trailing_nums` are
inert is a fixed point: the stem has no trailing digit run and the leading
hyphen segment is either all digits or digit-free. -/
theorem ftn_fix (w : Str)
    (h1 : digitSuffix (joinWith [ '.' ] ((splitOnChar '.' w).dropLast)) = [])
    (h2 : pyIsDigit ((splitOnChar '-' w).headD []) = true ∨
          digitPrefix ((splitOnChar '-' w).headD []) = []) :
    format_trailing_nums w = some w := by
  simp only [format_trailing_nums]
  rw [if_pos h1]
  simp only []
  rcases h2 with h2 | h2
  · rw [if_pos h2]
  · by_cases h3 : pyIsDigit ((splitOnChar '-' w).headD []) = true
    · rw [if_pos h3]
    · rw [if_neg h3, if_pos h2]

/-- Reconstruction: on a string of the shape `V-E.L` (digit run `E` before the
final dot, dot-free extension `L`), the trailing-number branch rebuilds
exactly the input, and an inert prefix branch leaves it unchanged. -/
theorem ftn_reconstruct (V E L : Str) (hEne : E ≠ [])
    (hEd : ∀ x ∈ E, x.isDigit = true) (hL : ('.') ∉ L)
    (h2 : pyIsDigit ((splitOnChar '-' (V ++ '-' :: (E ++ '.' :: L))).headD []) = true ∨
          digitPrefix ((splitOnChar '-' (V ++ '-' :: (E ++ '.' :: L))).headD []) = []) :
    format_trailing_nums (V ++ '-' :: (E ++ '.' :: L)) =
      some (V ++ '-' :: (E ++ '.' :: L)) := by
  have hw : V ++ '-' :: (E ++ '.' :: L) = (V ++ '-' :: E) ++ '.' :: L := by simp
  have hsplit : splitOnChar '.' ((V ++ '-' :: E) ++ '.' :: L) =
      splitOnChar '.' (V ++ '-' :: E) ++ [L] :=
    splitOnChar_append_last '.' (V ++ '-' :: E) L hL
  have hstem : joinWith [ '.' ] ((splitOnChar '.' ((V ++ '-' :: E) ++ '.' :: L)).dropLast) =
      V ++ '-' :: E := by
    rw [hsplit, List.dropLast_concat, joinWith_splitOnChar]
  have hlastseg : (splitOnChar '.' ((V ++ '-' :: E) ++ '.' :: L)).getLastD [] = L := by
    rw [hsplit, List.getLastD_concat]
  have hE : digitSuffix (V ++ '-' :: E) = E := digitSuffix_append V '-' E hEd (by decide)
  have hVdash : V ++ '-' :: E = (V ++ [ '-' ]) ++ E := by simp
  have hsos : splitOnStr E ((V ++ [ '-' ]) ++ E) = splitOnStr E (V ++ [ '-' ]) ++ [[]] := by
    refine splitOnStr_append_sep E hEne hEd (V ++ [ '-' ]) ?_
    intro x hx
    rw [List.getLast?_concat] at hx
    injection hx with hx
    rw [← hx]
    decide
  have hnew0 : joinWith E ((splitOnStr E (V ++ '-' :: E)).dropLast) = V ++ [ '-' ] := by
    rw [hVdash, hsos, List.dropLast_concat]
    exact joinWith_splitOnStr E hEne _
  rw [hw] at h2 ⊢
  simp only [format_trailing_nums]
  rw [hstem, hE, if_neg hEne, hnew0, List.getLast?_concat]
  simp only []
  simp only [if_true]
  rw [List.dropLast_concat]
  rw [hlastseg]
  have hjoin : joinWith [ '-' ] [V, E] ++ '.' :: L = (V ++ '-' :: E) ++ '.' :: L := by
    show (V ++ [ '-' ] ++ E) ++ '.' :: L = _
    simp
  rw [hjoin]
  rcases h2 with h2 | h2
  · rw [if_pos h2]
  · by_cases h3 : pyIsDigit ((splitOnChar '-' ((V ++ '-' :: E) ++ '.' :: L)).headD []) = true
    · rw [if_pos h3]
    · rw [if_neg h3, if_pos h2]

theorem stem_of_append (A L : Str) (hL : ('.') ∉ L) :
    joinWith [ '.' ] ((splitOnChar '.' (A ++ '.' :: L)).dropLast) = A := by
  rw [splitOnChar_append_last '.' A L hL, List.dropLast_concat, joinWith_splitOnChar]

theorem lastseg_of_append (A L : Str) (hL : ('.') ∉ L) :
    (splitOnChar '.' (A ++ '.' :: L)).getLastD [] = L := by
  rw [splitOnChar_append_last '.' A L hL, List.getLastD_concat]

theorem stem_nil_of_no_dot (u : Str) (h : ('.') ∉ u) :
    digitSuffix (joinWith [ '.' ] ((splitOnChar '.' u).dropLast)) = [] := by
  rw [splitOnChar_not_mem '.' u h]
  rfl

theorem digitSuffix_nil_dash_replace (X dp p1 : Str)
    (hdpd : ∀ x ∈ dp, x.isDigit = true) (hdpne : dp ≠ [])
    (h : digitSuffix p1 = []) :
    digitSuffix (X ++ '-' :: replaceAll dp p1) = [] := by
  rcases dropDigitSuffix_shape p1 with h0 | ⟨a, c, hac, hc⟩
  · have hp1 : p1 = [] := by
      have h4 := dropDigit_append_suffix p1
      rw [h0, h] at h4
      exact h4.symm
    rw [hp1]
    exact digitSuffix_append X '-' (replaceAll dp [])
      (fun x hx => absurd hx (List.not_mem_nil x)) (by decide)
  · have hp1 : p1 = a ++ [c] := by
      have h4 := dropDigit_append_suffix p1
      rw [hac, h, List.append_nil] at h4
      exact h4.symm
    rw [hp1]
    rw [show a ++ [c] = a ++ c :: ([] : Str) from rfl]
    rw [replaceAll_digit_boundary dp hdpd hdpne c hc [] a]
    have hform : X ++ '-' :: (replaceAll dp a ++ c :: replaceAll dp []) =
        (X ++ '-' :: replaceAll dp a) ++ c :: replaceAll dp [] := by simp
    rw [hform]
    rw [digitSuffix_append (X ++ '-' :: replaceAll dp a) c (replaceAll dp [])
      (fun x hx => absurd hx (List.not_mem_nil x)) hc]
    rfl

theorem stem_nil_case_dotted (dp p1 p2 R : Str)
    (hdpd : ∀ x ∈ dp, x.isDigit = true) (hdpne : dp ≠ [])
    (hp2 : ('.') ∉ p2) (hR : ('.') ∉ R) (hp1 : digitSuffix p1 = []) :
    digitSuffix (joinWith [ '.' ]
      ((splitOnChar '.' (dp ++ '-' :: (replaceAll dp (p1 ++ '.' :: p2) ++ '-' :: R))).dropLast)) =
      [] := by
  rw [replaceAll_digit_boundary dp hdpd hdpne '.' (by decide) p2 p1]
  have hform : dp ++ '-' :: ((replaceAll dp p1 ++ '.' :: replaceAll dp p2) ++ '-' :: R) =
      (dp ++ '-' :: replaceAll dp p1) ++ '.' :: (replaceAll dp p2 ++ '-' :: R) := by simp
  rw [hform]
  rw [stem_of_append _ _ ?hdot]
  case hdot =>
    intro hm
    rcases List.mem_append.mp hm with h1 | h1
    · exact hp2 (replaceAll_sub dp p2 '.' h1)
    · rcases List.mem_cons.mp h1 with h2 | h2
      · exact absurd h2 (by decide)
      · exact hR h2
  exact digitSuffix_nil_dash_replace dp dp p1 hdpd hdpne hp1

theorem stem_nil_case_dotR (X p a b : Str) (hb : ('.') ∉ b)
    (hpa : digitSuffix (p ++ '-' :: a) = []) :
    digitSuffix (joinWith [ '.' ]
      ((splitOnChar '.' ((X ++ '-' :: a) ++ '.' :: b)).dropLast)) = [] := by
  rw [stem_of_append (X ++ '-' :: a) b hb]
  exact (digitSuffix_nil_append X ('-' :: a) (by simp)).mpr
    ((digitSuffix_nil_append p ('-' :: a) (by simp)).mp hpa)

theorem headSeg_split_mid (N M : Str) :
    ∃ p r, ('-') ∉ p ∧ (splitOnChar '-' (N ++ '-' :: M)).headD [] = p ∧
      joinWith [ '-' ] ((splitOnChar '-' (N ++ '-' :: M)).tail) = r ∧
      ((N = p ∧ r = M) ∨ ∃ z, N = p ++ '-' :: z ∧ r = z ++ '-' :: M) := by
  by_cases h : ('-') ∈ N
  · rcases firstOcc '-' N h with ⟨p, z, hN, hp⟩
    have hform : N ++ '-' :: M = p ++ '-' :: (z ++ '-' :: M) := by rw [hN]; simp
    refine ⟨p, z ++ '-' :: M, hp, ?_, ?_, Or.inr ⟨z, hN, rfl⟩⟩
    · rw [hform]; exact headD_split_append '-' p _ hp
    · rw [hform]; exact tail_join_split_append '-' p _ hp
  · exact ⟨N, M, h, headD_split_append '-' N M h, tail_join_split_append '-' N M h,
      Or.inl ⟨rfl, rfl⟩⟩

theorem joinWith3_eq (a b c : Str) :
    joinWith [ '-' ] [a, b, c] = a ++ '-' :: (b ++ '-' :: c) := by
  show a ++ [ '-' ] ++ (b ++ [ '-' ] ++ c) = _
  simp

theorem joinWith2_ext_eq (N E L : Str) :
    joinWith [ '-' ] [N, E] ++ '.' :: L = N ++ '-' :: (E ++ '.' :: L) := by
  show (N ++ [ '-' ] ++ E) ++ '.' :: L = _
  simp

/-- Core of the fire case: once the trailing-number branch has produced
`N-E.L`, the prefix-correction branch yields a string that is a fixed point
of `format_trailing_nums`, with all characters drawn from the pieces. -/
theorem ftn_idem_fire_core (N E L : Str) (hEne : E ≠ [])
    (hEd : ∀ x ∈ E, x.isDigit = true) (hLd : ('.') ∉ L) (w : Str)
    (h : (if pyIsDigit ((splitOnChar '-' (N ++ '-' :: (E ++ '.' :: L))).headD []) = true
          then some (N ++ '-' :: (E ++ '.' :: L))
          else if digitPrefix ((splitOnChar '-' (N ++ '-' :: (E ++ '.' :: L))).headD []) = []
          then some (N ++ '-' :: (E ++ '.' :: L))
          else some (joinWith [ '-' ]
            [digitPrefix ((splitOnChar '-' (N ++ '-' :: (E ++ '.' :: L))).headD []),
             replaceAll (digitPrefix ((splitOnChar '-' (N ++ '-' :: (E ++ '.' :: L))).headD []))
               ((splitOnChar '-' (N ++ '-' :: (E ++ '.' :: L))).headD []),
             joinWith [ '-' ] ((splitOnChar '-' (N ++ '-' :: (E ++ '.' :: L))).tail)])) =
      some w) :
    format_trailing_nums w = some w ∧
      ∀ c ∈ w, (c ∈ N ∨ c ∈ E ∨ c ∈ L) ∨ c = '-' ∨ c = '.' := by
  by_cases hpy : pyIsDigit ((splitOnChar '-' (N ++ '-' :: (E ++ '.' :: L))).headD []) = true
  · rw [if_pos hpy] at h
    injection h with h
    subst h
    refine ⟨ftn_reconstruct N E L hEne hEd hLd (Or.inl hpy), ?_⟩
    intro c hc
    rcases List.mem_append.mp hc with h1 | h1
    · exact Or.inl (Or.inl h1)
    · rcases List.mem_cons.mp h1 with h2 | h2
      · exact Or.inr (Or.inl h2)
      · rcases List.mem_append.mp h2 with h3 | h3
        · exact Or.inl (Or.inr (Or.inl h3))
        · rcases List.mem_cons.mp h3 with h4 | h4
          · exact Or.inr (Or.inr h4)
          · exact Or.inl (Or.inr (Or.inr h4))
  · rw [if_neg hpy] at h
    by_cases hdp : digitPrefix ((splitOnChar '-' (N ++ '-' :: (E ++ '.' :: L))).headD []) = []
    · rw [if_pos hdp] at h
      injection h with h
      subst h
      refine ⟨ftn_reconstruct N E L hEne hEd hLd (Or.inr hdp), ?_⟩
      intro c hc
      rcases List.mem_append.mp hc with h1 | h1
      · exact Or.inl (Or.inl h1)
      · rcases List.mem_cons.mp h1 with h2 | h2
        · exact Or.inr (Or.inl h2)
        · rcases List.mem_append.mp h2 with h3 | h3
          · exact Or.inl (Or.inr (Or.inl h3))
          · rcases List.mem_cons.mp h3 with h4 | h4
            · exact Or.inr (Or.inr h4)
            · exact Or.inl (Or.inr (Or.inr h4))
    · rw [if_neg hdp] at h
      injection h with h
      rcases headSeg_split_mid N (E ++ '.' :: L) with ⟨p, r, hpdash, hph, hpj, hcase2⟩
      rw [hph, hpj] at h
      rw [hph] at hdp
      rw [joinWith3_eq] at h
      subst h
      have hdpd : ∀ x ∈ digitPrefix p, x.isDigit = true := digitPrefix_all p
      have hdpdash : ('-') ∉ digitPrefix p := not_dash_of_digits hdpd
      have hpyd : pyIsDigit (digitPrefix p) = true := pyIsDigit_of_all hdp hdpd
      have hpsub : ∀ c, c ∈ p → c ∈ N ∨ c = '-' := by
        intro c hc
        rcases hcase2 with ⟨hNp, _⟩ | ⟨z, hNz, _⟩
        · rw [hNp]; exact Or.inl hc
        · rw [hNz]; exact Or.inl (List.mem_append.mpr (Or.inl hc))
      rcases hcase2 with ⟨hNp, hrM⟩ | ⟨z, hNz, hrz⟩
      · subst hrM
        have hform : digitPrefix p ++ '-' ::
              (replaceAll (digitPrefix p) p ++ '-' :: (E ++ '.' :: L)) =
            (digitPrefix p ++ '-' :: replaceAll (digitPrefix p) p) ++ '-' :: (E ++ '.' :: L) := by
          simp
        rw [hform]
        refine ⟨ftn_reconstruct _ E L hEne hEd hLd (Or.inl ?_), ?_⟩
        · have hform2 : (digitPrefix p ++ '-' :: replaceAll (digitPrefix p) p) ++
              '-' :: (E ++ '.' :: L) =
              digitPrefix p ++ '-' :: (replaceAll (digitPrefix p) p ++ '-' :: (E ++ '.' :: L)) := by
            simp
          rw [hform2, headD_split_append '-' _ _ hdpdash]
          exact hpyd
        · intro c hc
          rcases List.mem_append.mp hc with h1 | h1
          · rcases List.mem_append.mp h1 with h2 | h2
            · rcases hpsub c (digitPrefix_sub p c h2) with h3 | h3
              · exact Or.inl (Or.inl h3)
              · exact Or.inr (Or.inl h3)
            · rcases List.mem_cons.mp h2 with h3 | h3
              · exact Or.inr (Or.inl h3)
              · rcases hpsub c (replaceAll_sub (digitPrefix p) p c h3) with h4 | h4
                · exact Or.inl (Or.inl h4)
                · exact Or.inr (Or.inl h4)
          · rcases List.mem_cons.mp h1 with h2 | h2
            · exact Or.inr (Or.inl h2)
            · rcases List.mem_append.mp h2 with h3 | h3
              · exact Or.inl (Or.inr (Or.inl h3))
              · rcases List.mem_cons.mp h3 with h4 | h4
                · exact Or.inr (Or.inr h4)
                · exact Or.inl (Or.inr (Or.inr h4))
      · subst hrz
        have hform : digitPrefix p ++ '-' ::
              (replaceAll (digitPrefix p) p ++ '-' :: (z ++ '-' :: (E ++ '.' :: L))) =
            (digitPrefix p ++ '-' :: (replaceAll (digitPrefix p) p ++ '-' :: z)) ++
              '-' :: (E ++ '.' :: L) := by
          simp
        rw [hform]
        refine ⟨ftn_reconstruct _ E L hEne hEd hLd (Or.inl ?_), ?_⟩
        · have hform2 : (digitPrefix p ++ '-' :: (replaceAll (digitPrefix p) p ++ '-' :: z)) ++
              '-' :: (E ++ '.' :: L) =
              digitPrefix p ++ '-' ::
                ((replaceAll (digitPrefix p) p ++ '-' :: z) ++ '-' :: (E ++ '.' :: L)) := by
            simp
          rw [hform2, headD_split_append '-' _ _ hdpdash]
          exact hpyd
        · have hzsub : ∀ c, c ∈ z → c ∈ N := by
            intro c hc
            rw [hNz]
            exact List.mem_append.mpr (Or.inr (List.mem_cons_of_mem '-' hc))
          intro c hc
          rcases List.mem_append.mp hc with h1 | h1
          · rcases List.mem_append.mp h1 with h2 | h2
            · rcases hpsub c (digitPrefix_sub p c h2) with h3 | h3
              · exact Or.inl (Or.inl h3)
              · exact Or.inr (Or.inl h3)
            · rcases List.mem_cons.mp h2 with h3 | h3
              · exact Or.inr (Or.inl h3)
              · rcases List.mem_append.mp h3 with h4 | h4
                · rcases hpsub c (replaceAll_sub (digitPrefix p) p c h4) with h5 | h5
                  · exact Or.inl (Or.inl h5)
                  · exact Or.inr (Or.inl h5)
                · rcases List.mem_cons.mp h4 with h5 | h5
                  · exact Or.inr (Or.inl h5)
                  · exact Or.inl (Or.inl (hzsub c h5))
          · rcases List.mem_cons.mp h1 with h2 | h2
            · exact Or.inr (Or.inl h2)
            · rcases List.mem_append.mp h2 with h3 | h3
              · exact Or.inl (Or.inr (Or.inl h3))
              · rcases List.mem_cons.mp h3 with h4 | h4
                · exact Or.inr (Or.inr h4)
                · exact Or.inl (Or.inr (Or.inr h4))

/-- `format_trailing_nums` is idempotent on its successes, and every output
character is an input character, a hyphen, or a dot. -/
theorem ftn_idem (t w : Str) (h : format_trailing_nums t = some w) :
    format_trailing_nums w = some w ∧ (∀ c ∈ w, c ∈ t ∨ c = '-' ∨ c = '.') := by
  by_cases hE : digitSuffix (joinWith [ '.' ] ((splitOnChar '.' t).dropLast)) = []
  · simp only [format_trailing_nums] at h
    rw [if_pos hE] at h
    simp only [] at h
    by_cases hpy : pyIsDigit ((splitOnChar '-' t).headD []) = true
    · rw [if_pos hpy] at h
      injection h with h
      subst h
      exact ⟨ftn_fix t hE (Or.inl hpy), fun c hc => Or.inl hc⟩
    · rw [if_neg hpy] at h
      by_cases hdp : digitPrefix ((splitOnChar '-' t).headD []) = []
      · rw [if_pos hdp] at h
        injection h with h
        subst h
        exact ⟨ftn_fix t hE (Or.inr hdp), fun c hc => Or.inl hc⟩
      · rw [if_neg hdp] at h
        injection h with h
        rcases headSeg_tail_decomp '-' t with ⟨p, hpeq, hpdash, hcase⟩
        rw [hpeq] at h hdp
        have hdpd : ∀ x ∈ digitPrefix p, x.isDigit = true := digitPrefix_all p
        have hdpdash : ('-') ∉ digitPrefix p := not_dash_of_digits hdpd
        have hpyd : pyIsDigit (digitPrefix p) = true := pyIsDigit_of_all hdp hdpd
        rcases hcase with ⟨htp, hjt⟩ | ⟨q, htq, hjq⟩
        · rw [hjt, joinWith3_eq] at h
          subst h
          refine ⟨ftn_fix _ ?stem2 (Or.inl ?head2), ?mem2⟩
          case head2 =>
            rw [headD_split_append '-' (digitPrefix p) _ hdpdash]
            exact hpyd
          case stem2 =>
            rcases last_occ_decomp '.' p with hnd | ⟨p1, p2, hp12, hp2d⟩
            · apply stem_nil_of_no_dot
              intro hm
              rcases List.mem_append.mp hm with h1 | h1
              · exact absurd (hdpd '.' h1) (by decide)
              · rcases List.mem_cons.mp h1 with h2 | h2
                · exact absurd h2 (by decide)
                · rcases List.mem_append.mp h2 with h3 | h3
                  · exact hnd (replaceAll_sub (digitPrefix p) p '.' h3)
                  · rcases List.mem_cons.mp h3 with h4 | h4
                    · exact absurd h4 (by decide)
                    · exact absurd h4 (List.not_mem_nil '.')
            · rw [htp] at hE
              subst hp12
              rw [stem_of_append p1 p2 hp2d] at hE
              exact stem_nil_case_dotted _ p1 p2 [] hdpd hdp hp2d (List.not_mem_nil '.') hE
          case mem2 =>
            have hsubp : ∀ c : Char, c ∈ p → c ∈ t := fun c hc => by rw [htp]; exact hc
            intro c hc
            rcases List.mem_append.mp hc with h1 | h1
            · exact Or.inl (hsubp c (digitPrefix_sub p c h1))
            · rcases List.mem_cons.mp h1 with h2 | h2
              · exact Or.inr (Or.inl h2)
              · rcases List.mem_append.mp h2 with h3 | h3
                · exact Or.inl (hsubp c (replaceAll_sub (digitPrefix p) p c h3))
                · rcases List.mem_cons.mp h3 with h4 | h4
                  · exact Or.inr (Or.inl h4)
                  · exact absurd h4 (List.not_mem_nil c)
        · rw [hjq, joinWith3_eq] at h
          subst h
          refine ⟨ftn_fix _ ?stem3 (Or.inl ?head3), ?mem3⟩
          case head3 =>
            rw [headD_split_append '-' (digitPrefix p) _ hdpdash]
            exact hpyd
          case stem3 =>
            rcases last_occ_decomp '.' q with hqnd | ⟨a, b, hqab, hbd⟩
            · rcases last_occ_decomp '.' p with hpnd | ⟨p1, p2, hp12, hp2d⟩
              · apply stem_nil_of_no_dot
                intro hm
                rcases List.mem_append.mp hm with h1 | h1
                · exact absurd (hdpd '.' h1) (by decide)
                · rcases List.mem_cons.mp h1 with h2 | h2
                  · exact absurd h2 (by decide)
                  · rcases List.mem_append.mp h2 with h3 | h3
                    · exact hpnd (replaceAll_sub (digitPrefix p) p '.' h3)
                    · rcases List.mem_cons.mp h3 with h4 | h4
                      · exact absurd h4 (by decide)
                      · exact hqnd h4
              · rw [htq] at hE
                subst hp12
                have hdot2 : ('.') ∉ p2 ++ '-' :: q := by
                  intro hm
                  rcases List.mem_append.mp hm with h1 | h1
                  · exact hp2d h1
                  · rcases List.mem_cons.mp h1 with h2 | h2
                    · exact absurd h2 (by decide)
                    · exact hqnd h2
                have hf : (p1 ++ '.' :: p2) ++ '-' :: q = p1 ++ '.' :: (p2 ++ '-' :: q) := by
                  simp
                rw [hf, stem_of_append p1 (p2 ++ '-' :: q) hdot2] at hE
                exact stem_nil_case_dotted _ p1 p2 q hdpd hdp hp2d hqnd hE
            · rw [htq] at hE
              subst hqab
              have hf : p ++ '-' :: (a ++ '.' :: b) = (p ++ '-' :: a) ++ '.' :: b := by simp
              rw [hf, stem_of_append (p ++ '-' :: a) b hbd] at hE
              have hf2 : digitPrefix p ++ '-' ::
                    (replaceAll (digitPrefix p) p ++ '-' :: (a ++ '.' :: b)) =
                  ((digitPrefix p ++ '-' :: replaceAll (digitPrefix p) p) ++ '-' :: a) ++
                    '.' :: b := by
                simp
              rw [hf2]
              exact stem_nil_case_dotR (digitPrefix p ++ '-' :: replaceAll (digitPrefix p) p)
                p a b hbd hE
          case mem3 =>
            have hsubp : ∀ c : Char, c ∈ p → c ∈ t := fun c hc => by
              rw [htq]; exact List.mem_append.mpr (Or.inl hc)
            have hsubq : ∀ c : Char, c ∈ q → c ∈ t := fun c hc => by
              rw [htq]; exact List.mem_append.mpr (Or.inr (List.mem_cons_of_mem '-' hc))
            intro c hc
            rcases List.mem_append.mp hc with h1 | h1
            · exact Or.inl (hsubp c (digitPrefix_sub p c h1))
            · rcases List.mem_cons.mp h1 with h2 | h2
              · exact Or.inr (Or.inl h2)
              · rcases List.mem_append.mp h2 with h3 | h3
                · exact Or.inl (hsubp c (replaceAll_sub (digitPrefix p) p c h3))
                · rcases List.mem_cons.mp h3 with h4 | h4
                  · exact Or.inr (Or.inl h4)
                  · exact Or.inl (hsubq c h4)
  · rcases last_occ_decomp '.' t with hnd | ⟨A, L, htAL, hLd⟩
    · exact absurd (stem_nil_of_no_dot t hnd) hE
    · subst htAL
      rw [stem_of_append A L hLd] at hE
      simp only [format_trailing_nums] at h
      rw [stem_of_append A L hLd] at h
      rw [if_neg hE] at h
      rw [lastseg_of_append A L hLd] at h
      have hEd : ∀ x ∈ digitSuffix A, x.isDigit = true := digitSuffix_all A
      have hu_last : ∀ x, (dropDigitSuffix A).getLast? = some x → x.isDigit = false := by
        intro x hx
        rcases dropDigitSuffix_shape A with h0 | ⟨a, c, hac, hc⟩
        · rw [h0] at hx
          exact Option.noConfusion hx
        · rw [hac, List.getLast?_concat] at hx
          injection hx with hx
          rw [← hx]
          exact hc
      have hnew0 : joinWith (digitSuffix A) ((splitOnStr (digitSuffix A) A).dropLast) =
          dropDigitSuffix A := by
        have h1 : splitOnStr (digitSuffix A) (dropDigitSuffix A ++ digitSuffix A) =
            splitOnStr (digitSuffix A) (dropDigitSuffix A) ++ [[]] :=
          splitOnStr_append_sep (digitSuffix A) hE hEd (dropDigitSuffix A) hu_last
        rw [dropDigit_append_suffix A] at h1
        rw [h1, List.dropLast_concat]
        exact joinWith_splitOnStr (digitSuffix A) hE _
      rw [hnew0] at h
      have hAsub : ∀ c : Char, c ∈ dropDigitSuffix A → c ∈ A := by
        intro c hc
        rw [← dropDigit_append_suffix A]
        exact List.mem_append.mpr (Or.inl hc)
      have hEsub : ∀ c : Char, c ∈ digitSuffix A → c ∈ A := digitSuffix_sub A
      rcases hu : (dropDigitSuffix A).getLast? with _ | cu
      · rw [hu] at h
        simp only [] at h
        exact Option.noConfusion h
      · rw [hu] at h
        simp only [] at h
        by_cases hdash : cu = '-'
        · rw [if_pos hdash] at h
          rw [joinWith2_ext_eq] at h
          rcases ftn_idem_fire_core _ (digitSuffix A) L hE hEd hLd w h with ⟨h1, h2⟩
          refine ⟨h1, ?_⟩
          intro c hc
          rcases h2 c hc with (h3 | h3 | h3) | h3
          · exact Or.inl (List.mem_append.mpr (Or.inl (hAsub c (mem_of_dropLast h3))))
          · exact Or.inl (List.mem_append.mpr (Or.inl (hEsub c h3)))
          · exact Or.inl (List.mem_append.mpr (Or.inr (List.mem_cons_of_mem '.' h3)))
          · exact Or.inr h3
        · rw [if_neg hdash] at h
          rw [joinWith2_ext_eq] at h
          rcases ftn_idem_fire_core _ (digitSuffix A) L hE hEd hLd w h with ⟨h1, h2⟩
          refine ⟨h1, ?_⟩
          intro c hc
          rcases h2 c hc with (h3 | h3 | h3) | h3
          · exact Or.inl (List.mem_append.mpr (Or.inl (hAsub c h3)))
          · exact Or.inl (List.mem_append.mpr (Or.inl (hEsub c h3)))
          · exact Or.inl (List.mem_append.mpr (Or.inr (List.mem_cons_of_mem '.' h3)))
          · exact Or.inr h3

/-- Claim C6: filename normalization (whitespace collapse, trailing-digit-run
separation, and digit-prefix separation) is idempotent: for every filename,
applying the per-element normalization twice yields exactly the result of
applying it once (and a raising input raises both times). -/
theorem c6_normalization_idempotent (s : Str) :
    (format1 s).bind format1 = format1 s := by
  cases h : format1 s with
  | none => rfl
  | some w =>
    show format1 w = some w
    rcases ftn_idem (collapseWs s) w h with ⟨hfix, hchars⟩
    have hnoWs : ∀ c ∈ w, c.isWhitespace = false := by
      intro c hc
      rcases hchars c hc with h3 | h3 | h3
      · exact noWs_collapseWs s c h3
      · rw [h3]; decide
      · rw [h3]; decide
    show format_trailing_nums (collapseWs w) = some w
    rw [collapseWs_fix w hnoWs]
    exact hfix

end ChannelMerge
